import Mathlib

/-!
Verification of the JSON extraction / normalization core of the code-optimiser
service (`src/main.py`).

Modelling conventions:
* Python's JSON values are the inductive `Json` below.  JSON numbers are
  modelled as integers; float literals are outside the model (the parser
  rejects them), as are `NaN` / `Infinity` constants.
* Python `dict`s are association lists with unique keys; `json.loads`
  collapses duplicate keys with last-value-wins, first-position-wins,
  exactly as the incremental `d[k] = v` construction does in CPython.
* `json.dumps` is modelled with `ensure_ascii=False` spacing-faithful output
  (separators `", "` and `": "`); only `"`!, `\`, and control characters are
  escaped, control characters via `\u00XX`.  Python's `str.strip` is modelled
  on the six ASCII whitespace characters.
* Exceptions are `Except` values: `ExtractErr` for the errors `extract_json`
  raises, `PyErr` for uncaught `TypeError` / `AttributeError`.
-/

inductive Json where
  | null : Json
  | bool (b : Bool) : Json
  | num (n : Int) : Json
  | str (s : String) : Json
  | arr (elems : List Json) : Json
  | obj (members : List (String × Json)) : Json

/-- Python `d.get(k)` on an association-list dictionary. -/
def dictGet? (kvs : List (String × Json)) (k : String) : Option Json :=
  (kvs.find? (fun p => p.1 = k)).map (fun p => p.2)

/-- Python `d.get(k, fallback)`. -/
def dictGetD (kvs : List (String × Json)) (k : String) (fallback : Json) : Json :=
  (dictGet? kvs k).getD fallback

/-- Does the dictionary have the key? -/
def hasKey (kvs : List (String × Json)) (k : String) : Bool :=
  (kvs.find? (fun p => p.1 = k)).isSome

/-- Python `d[k] = v`: overwrite in place if the key exists, else append. -/
def dictInsert (kvs : List (String × Json)) (k : String) (v : Json) :
    List (String × Json) :=
  if hasKey kvs k then kvs.map (fun p => if p.1 = k then (k, v) else p)
  else kvs ++ [(k, v)]

/-- Python `d.setdefault(k, v)`: insert only when the key is absent. -/
def setdefault (kvs : List (String × Json)) (k : String) (v : Json) :
    List (String × Json) :=
  if hasKey kvs k then kvs else kvs ++ [(k, v)]

/-- CPython's dict construction from a pair sequence (`d[k] = v` in order). -/
def buildDict (pairs : List (String × Json)) : List (String × Json) :=
  pairs.foldl (fun d kv => dictInsert d kv.1 kv.2) []

example : dictGetD [("a", Json.num 1)] "b" Json.null = Json.null := rfl

example : setdefault [("a", Json.num 1)] "a" Json.null = [("a", Json.num 1)] := rfl

/-! ## Character classes and numerals -/

/-- JSON whitespace (the four characters `json.loads` skips between tokens). -/
def jsonWs (c : Char) : Bool := c == ' ' || c == '\t' || c == '\n' || c == '\r'

def skipWs (cs : List Char) : List Char := cs.dropWhile jsonWs

/-- ASCII whitespace stripped by Python `str.strip` (ASCII fragment of it). -/
def pyWs (c : Char) : Bool :=
  c == ' ' || c == '\t' || c == '\n' || c == '\r' || c == '\x0b' || c == '\x0c'

/-- Python `s.strip()`. -/
def pyStrip (cs : List Char) : List Char :=
  ((cs.dropWhile pyWs).reverse.dropWhile pyWs).reverse

def isDigitCh (c : Char) : Bool := decide (48 ≤ c.toNat) && decide (c.toNat ≤ 57)

def digitChar (d : Nat) : Char := Char.ofNat (48 + d)

def digitVal (c : Char) : Nat := c.toNat - 48

/-- Decimal digits of a natural number, most significant first (Python `str(n)`). -/
def natToChars (n : Nat) : List Char :=
  if _h : n < 10 then [digitChar n]
  else natToChars (n / 10) ++ [digitChar (n % 10)]
decreasing_by exact Nat.div_lt_self (by omega) (by omega)

/-- Python `str` / `json.dumps` rendering of an int. -/
def intToChars (n : Int) : List Char :=
  if n < 0 then '-' :: natToChars n.natAbs else natToChars n.toNat

def charsToNat (cs : List Char) : Nat := cs.foldl (fun a c => a * 10 + digitVal c) 0

def hexDigitChar (d : Nat) : Char :=
  if d < 10 then Char.ofNat (48 + d) else Char.ofNat (87 + d)

/-! ## `json.dumps` (ensure_ascii-free model, default separators) -/

/-- How `json.dumps` renders one character inside a string literal. -/
def escChar (c : Char) : List Char :=
  if c = '"' then ['\\', '"']
  else if c = '\\' then ['\\', '\\']
  else if c = '\n' then ['\\', 'n']
  else if c = '\r' then ['\\', 'r']
  else if c = '\t' then ['\\', 't']
  else if c.toNat = 8 then ['\\', 'b']
  else if c.toNat = 12 then ['\\', 'f']
  else if c.toNat < 32 then
    ['\\', 'u', '0', '0', hexDigitChar (c.toNat / 16), hexDigitChar (c.toNat % 16)]
  else [c]

def escapeChars (cs : List Char) : List Char := cs.flatMap escChar

mutual

def encode : Json → List Char
  | .null => 'n' :: ['u', 'l', 'l']
  | .bool true => 't' :: ['r', 'u', 'e']
  | .bool false => 'f' :: ['a', 'l', 's', 'e']
  | .num n => intToChars n
  | .str s => '"' :: escapeChars s.data ++ ['"']
  | .arr xs => '[' :: encodeElems xs ++ [']']
  | .obj kvs => '\x7b' :: encodeMembers kvs ++ ['\x7d']

def encodeElems : List Json → List Char
  | [] => []
  | [x] => encode x
  | x :: tl => encode x ++ ',' :: ' ' :: encodeElems tl

def encodeMembers : List (String × Json) → List Char
  | [] => []
  | [(k, v)] => '"' :: escapeChars k.data ++ '"' :: ':' :: ' ' :: encode v
  | (k, v) :: tl =>
      '"' :: escapeChars k.data ++ '"' :: ':' :: ' ' :: encode v ++
        ',' :: ' ' :: encodeMembers tl

end

def json_dumps (v : Json) : String := String.mk (encode v)

example : json_dumps (.obj [("a", .num 1)]) = "\x7b\"a\": 1\x7d" := by
  simp [json_dumps, encode, encodeMembers, intToChars, natToChars, escapeChars, escChar]
  decide

/-! ## `json.loads` -/

def hexVal (c : Char) : Option Nat :=
  if 48 ≤ c.toNat ∧ c.toNat ≤ 57 then some (c.toNat - 48)
  else if 97 ≤ c.toNat ∧ c.toNat ≤ 102 then some (c.toNat - 87)
  else if 65 ≤ c.toNat ∧ c.toNat ≤ 70 then some (c.toNat - 55)
  else none

/-- The single-character JSON string escapes. -/
def escDecode (e : Char) : Option Char :=
  if e = '"' then some '"'
  else if e = '\\' then some '\\'
  else if e = '/' then some '/'
  else if e = 'b' then some (Char.ofNat 8)
  else if e = 'f' then some (Char.ofNat 12)
  else if e = 'n' then some '\n'
  else if e = 'r' then some '\r'
  else if e = 't' then some '\t'
  else none

/-- A `\\uXXXX` escape's scalar value when the four digits are hex and the
value is not a surrogate half. -/
def hexScalar (h1 h2 h3 h4 : Char) : Option Nat :=
  match hexVal h1, hexVal h2, hexVal h3, hexVal h4 with
  | some a, some b, some c, some d =>
    let n := a * 4096 + b * 256 + c * 16 + d
    if n < 55296 ∨ 57343 < n then some n else none
  | _, _, _, _ => none

/-- A high-surrogate escape followed by a low-surrogate escape, combined into
one code point. -/
def surrogatePair (h1 h2 h3 h4 b1 b2 g1 g2 g3 g4 : Char) : Option Nat :=
  if b1 = '\\' ∧ b2 = 'u' then
    match hexVal h1, hexVal h2, hexVal h3, hexVal h4,
        hexVal g1, hexVal g2, hexVal g3, hexVal g4 with
    | some a, some b, some c, some d, some a2, some b2, some c2, some d2 =>
      let n := a * 4096 + b * 256 + c * 16 + d
      let m := a2 * 4096 + b2 * 256 + c2 * 16 + d2
      if 55296 ≤ n ∧ n < 56320 ∧ 56320 ≤ m ∧ m < 57344 then
        some (65536 + (n - 55296) * 1024 + (m - 56320))
      else none
    | _, _, _, _, _, _, _, _ => none
  else none

/-- One step of the JSON string-literal scanner: decodes the next character
(or escape sequence) and continues through `recur`. -/
def psbStep (recur : List Char → Except String (List Char × List Char)) :
    List Char → Except String (List Char × List Char)
  | [] => .error "Unterminated string"
  | c :: rest =>
    if c = '"' then .ok ([], rest)
    else if c = '\\' then
      match rest with
      | [] => .error "Unterminated string"
      | e :: rest2 =>
        if e = 'u' then
          match rest2 with
          | h1 :: h2 :: h3 :: h4 :: rest3 =>
            match hexScalar h1 h2 h3 h4 with
            | some n =>
              match recur rest3 with
              | .ok p => .ok (Char.ofNat n :: p.1, p.2)
              | .error e => .error e
            | none =>
              match rest3 with
              | b1 :: b2 :: g1 :: g2 :: g3 :: g4 :: rest4 =>
                match surrogatePair h1 h2 h3 h4 b1 b2 g1 g2 g3 g4 with
                | some code =>
                  match recur rest4 with
                  | .ok p => .ok (Char.ofNat code :: p.1, p.2)
                  | .error e => .error e
                | none => .error "Invalid surrogate escape"
              | _ => .error "Unpaired surrogate escape"
          | _ => .error "Invalid hex escape"
        else
          match escDecode e with
          | some ch =>
            match recur rest2 with
            | .ok p => .ok (ch :: p.1, p.2)
            | .error er => .error er
          | none => .error "Invalid escape"
    else if c.toNat < 32 then .error "Invalid control character"
    else
      match recur rest with
      | .ok p => .ok (c :: p.1, p.2)
      | .error e => .error e

/-- The string-literal scanner, on bounded fuel (every step consumes at least
one character, so the input length is always enough fuel). -/
def parseStringBodyF : Nat → List Char → Except String (List Char × List Char)
  | 0, _ => .error "Unterminated string"
  | fuel + 1, cs => psbStep (parseStringBodyF fuel) cs

/-- Body of a JSON string literal, after the opening quote: returns the decoded
characters and the input following the closing quote.  Lone surrogate escapes
are rejected (CPython tolerates them but Lean `Char` cannot carry them). -/
def parseStringBody (cs : List Char) : Except String (List Char × List Char) :=
  parseStringBodyF cs.length cs

/-- Digit run of a JSON integer literal (float syntax is outside the model). -/
def parseNumPart (cs : List Char) : Except String (Nat × List Char) :=
  let ds := cs.takeWhile isDigitCh
  let rest := cs.dropWhile isDigitCh
  if ds.isEmpty then .error "Expecting value"
  else if ds.head? = some '0' ∧ 1 < ds.length then .error "Expecting value"
  else if rest.head? = some '.' ∨ rest.head? = some 'e' ∨ rest.head? = some 'E' then
    .error "float literals are outside the model"
  else .ok (charsToNat ds, rest)

def parseNumber (cs : List Char) : Except String (Int × List Char) :=
  if cs.head? = some '-' then
    match parseNumPart cs.tail with
    | .ok p => .ok (-(p.1 : Int), p.2)
    | .error e => .error e
  else
    match parseNumPart cs with
    | .ok p => .ok ((p.1 : Int), p.2)
    | .error e => .error e

mutual

def parseValue : Nat → List Char → Except String (Json × List Char)
  | 0, _ => .error "recursion depth exceeded"
  | fuel + 1, cs =>
    match skipWs cs with
    | [] => .error "Expecting value"
    | c :: rest =>
      if c = '\x7b' then
        let r := skipWs rest
        if r.head? = some '\x7d' then .ok (.obj [], r.tail)
        else
          match parseMembers fuel r with
          | .ok p => .ok (.obj (buildDict p.1), p.2)
          | .error e => .error e
      else if c = '[' then
        let r := skipWs rest
        if r.head? = some ']' then .ok (.arr [], r.tail)
        else
          match parseElements fuel r with
          | .ok p => .ok (.arr p.1, p.2)
          | .error e => .error e
      else if c = '"' then
        match parseStringBody rest with
        | .ok p => .ok (.str (String.mk p.1), p.2)
        | .error e => .error e
      else if c = 't' then
        match rest with
        | 'r' :: 'u' :: 'e' :: rest2 => .ok (.bool true, rest2)
        | _ => .error "Expecting value"
      else if c = 'f' then
        match rest with
        | 'a' :: 'l' :: 's' :: 'e' :: rest2 => .ok (.bool false, rest2)
        | _ => .error "Expecting value"
      else if c = 'n' then
        match rest with
        | 'u' :: 'l' :: 'l' :: rest2 => .ok (.null, rest2)
        | _ => .error "Expecting value"
      else
        match parseNumber (c :: rest) with
        | .ok p => .ok (.num p.1, p.2)
        | .error e => .error e

def parseMembers : Nat → List Char → Except String (List (String × Json) × List Char)
  | 0, _ => .error "recursion depth exceeded"
  | fuel + 1, cs =>
    if cs.head? = some '"' then
      match parseStringBody cs.tail with
      | .error e => .error e
      | .ok (key, r1) =>
        let r2 := skipWs r1
        if r2.head? = some ':' then
          match parseValue fuel r2.tail with
          | .error e => .error e
          | .ok (v, r3) =>
            let r4 := skipWs r3
            if r4.head? = some ',' then
              match parseMembers fuel (skipWs r4.tail) with
              | .error e => .error e
              | .ok (kvs, r5) => .ok ((String.mk key, v) :: kvs, r5)
            else if r4.head? = some '\x7d' then .ok ([(String.mk key, v)], r4.tail)
            else .error "Expecting comma delimiter"
        else .error "Expecting colon delimiter"
    else .error "Expecting property name enclosed in double quotes"

def parseElements : Nat → List Char → Except String (List Json × List Char)
  | 0, _ => .error "recursion depth exceeded"
  | fuel + 1, cs =>
    match parseValue fuel cs with
    | .error e => .error e
    | .ok (v, r1) =>
      let r2 := skipWs r1
      if r2.head? = some ',' then
        match parseElements fuel r2.tail with
        | .error e => .error e
        | .ok (xs, r3) => .ok (v :: xs, r3)
      else if r2.head? = some ']' then .ok ([v], r2.tail)
      else .error "Expecting comma delimiter"

end

def json_loads (s : String) : Except String Json :=
  match parseValue (s.length + 1) s.data with
  | .error e => .error e
  | .ok (v, rest) => if (skipWs rest).isEmpty then .ok v else .error "Extra data"

example : json_loads "\x7b\"a\": 1\x7d" = .ok (.obj [("a", .num 1)]) := rfl

example : json_loads "\x7b\"a\": \x7b\"b\": [1, -2, true, null]\x7d\x7d" =
    .ok (.obj [("a", .obj [("b", .arr [.num 1, .num (-2), .bool true, .null])])]) := rfl

example : json_loads "\x7b\"a\": 1" = .error "Expecting comma delimiter" := rfl

/-! ## `extract_json` (src/main.py lines 71-101) -/

def isTick (c : Char) : Bool := c.toNat == 96

def lowerAscii (c : Char) : Char :=
  if 65 ≤ c.toNat ∧ c.toNat ≤ 90 then Char.ofNat (c.toNat + 32) else c

/-- After an opening fence, the regex `^```(?:json)?` optionally also removes a
case-insensitive `json` tag. -/
def stripJsonTag (cs : List Char) : List Char :=
  match cs with
  | a :: b :: c :: d :: rest =>
    if lowerAscii a == 'j' && lowerAscii b == 's' && lowerAscii c == 'o' &&
        lowerAscii d == 'n' then rest
    else cs
  | _ => cs

/-- `re.sub(r"^```(?:json)?", "", text, flags=re.IGNORECASE)`. -/
def stripLeadFence (cs : List Char) : List Char :=
  match cs with
  | a :: b :: c :: rest =>
    if isTick a && isTick b && isTick c then stripJsonTag rest else cs
  | _ => cs

/-- `re.sub(r"```$", "", text)` (the text has been stripped, so `$` is the end). -/
def stripTrailFence (cs : List Char) : List Char :=
  match cs.reverse with
  | a :: b :: c :: rest => if isTick a && isTick b && isTick c then rest.reverse else cs
  | _ => cs

/-- Lines 77-79: strip, remove a leading fence, strip, remove a trailing
fence, strip. -/
def stripFences (cs : List Char) : List Char :=
  pyStrip (stripTrailFence (pyStrip (stripLeadFence (pyStrip cs))))

/-- The loop of lines 86-98: starting at a `{`, track brace depth and stop at
the first `}` that brings the depth back to zero, returning the scanned
segment; `none` when the depth never returns to zero before the end. -/
def scanBalanced (depth : Int) : List Char → Option (List Char)
  | [] => none
  | c :: rest =>
    if c = '\x7b' then (scanBalanced (depth + 1) rest).map (fun p => c :: p)
    else if c = '\x7d' then
      if depth - 1 = 0 then some [c]
      else (scanBalanced (depth - 1) rest).map (fun p => c :: p)
    else (scanBalanced depth rest).map (fun p => c :: p)

/-- The errors `extract_json` raises.  `noJson` carries the message
`"No JSON detected in LLM response"`, `incomplete` the message
`"Could not match complete JSON"`, and `parseFail` re-raises the parse
error (line 98 `raise e`). -/
inductive ExtractErr where
  | noJson : ExtractErr
  | incomplete : ExtractErr
  | parseFail (msg : String) : ExtractErr

def extractErrMsg : ExtractErr → String
  | .noJson => "No JSON detected in LLM response"
  | .incomplete => "Could not match complete JSON"
  | .parseFail msg => msg

/-- Lines 77-81: the stripped text from its first `{` on (empty when the text
has no `{`, the `start == -1` case). -/
def extractSuffix (text : String) : List Char :=
  (stripFences text.data).dropWhile (fun c => !(c == '\x7b'))

/-- `extract_json` of src/main.py: fence stripping, first `{`, balanced-brace
scan, then `json.loads` on the candidate with the parse error re-raised. -/
def extract_json (text : String) : Except ExtractErr Json :=
  let suffix := extractSuffix text
  if suffix.isEmpty then .error .noJson
  else
    match scanBalanced 0 suffix with
    | none => .error .incomplete
    | some cand =>
      match json_loads (String.mk cand) with
      | .ok v => .ok v
      | .error e => .error (.parseFail e)

example : extract_json "\x7b\"a\": 1\x7d" = .ok (.obj [("a", .num 1)]) := rfl

example : extract_json "Sure! Here is the result:\n\x7b\"a\":1\x7d\nHope that helps." =
    .ok (.obj [("a", .num 1)]) := rfl

example : extract_json "```json\n\x7b\"a\":1\x7d\n```" = .ok (.obj [("a", .num 1)]) := rfl

example : extract_json "no json here" = .error .noJson := rfl

example : extract_json "\x7b\"a\":1" = .error .incomplete := rfl

example : extract_json "\x7b\"a\": \x7b\"b\": 1\x7d\x7d" =
    .ok (.obj [("a", .obj [("b", .num 1)])]) := rfl

example : extract_json "x \x7b\"a\": 1\x7d y \x7b\"b\": 2\x7d" =
    .ok (.obj [("a", .num 1)]) := rfl

/-! ## Python `str()` / `repr()` (the fallback suggestion branch uses `str(s)`) -/

def squote : Char := Char.ofNat 39

/-- CPython `repr` picks single quotes unless the string contains a single
quote and no double quote. -/
def pyQuote (s : List Char) : Char :=
  if s.contains squote ∧ ¬ s.contains '"' then '"' else squote

def escPyChar (q : Char) (c : Char) : List Char :=
  if c = '\\' then ['\\', '\\']
  else if c = q then ['\\', q]
  else if c = '\n' then ['\\', 'n']
  else if c = '\r' then ['\\', 'r']
  else if c = '\t' then ['\\', 't']
  else if c.toNat < 32 ∨ c.toNat = 127 then
    ['\\', 'x', hexDigitChar (c.toNat / 16), hexDigitChar (c.toNat % 16)]
  else [c]

def pyStrReprChars (s : List Char) : List Char :=
  let q := pyQuote s
  q :: s.flatMap (escPyChar q) ++ [q]

mutual

def pyRepr : Json → List Char
  | .null => ['N', 'o', 'n', 'e']
  | .bool true => ['T', 'r', 'u', 'e']
  | .bool false => ['F', 'a', 'l', 's', 'e']
  | .num n => intToChars n
  | .str s => pyStrReprChars s.data
  | .arr xs => '[' :: pyReprElems xs ++ [']']
  | .obj kvs => '\x7b' :: pyReprMembers kvs ++ ['\x7d']

def pyReprElems : List Json → List Char
  | [] => []
  | [x] => pyRepr x
  | x :: tl => pyRepr x ++ ',' :: ' ' :: pyReprElems tl

def pyReprMembers : List (String × Json) → List Char
  | [] => []
  | [(k, v)] => pyStrReprChars k.data ++ ':' :: ' ' :: pyRepr v
  | (k, v) :: tl =>
      pyStrReprChars k.data ++ ':' :: ' ' :: pyRepr v ++ ',' :: ' ' :: pyReprMembers tl

end

/-- Python `str(x)` of a JSON-decoded value. -/
def pyStr : Json → String
  | .str s => s
  | .null => String.mk (pyRepr .null)
  | .bool b => String.mk (pyRepr (.bool b))
  | .num n => String.mk (pyRepr (.num n))
  | .arr xs => String.mk (pyRepr (.arr xs))
  | .obj kvs => String.mk (pyRepr (.obj kvs))

/-! ## Normalization (src/main.py lines 105-146) -/

/-- Uncaught Python exceptions escaping the core functions. -/
inductive PyErr where
  | typeError (msg : String) : PyErr
  | attributeError (msg : String) : PyErr

/-- Python iteration (`for s in x`) over a JSON-decoded value: lists yield
their elements, strings yield their characters as one-character strings,
dicts yield their keys; int, bool and `None` raise `TypeError`. -/
def pyIter : Json → Except PyErr (List Json)
  | .arr xs => .ok xs
  | .str s => .ok (s.data.map (fun c => .str (String.mk [c])))
  | .obj kvs => .ok (kvs.map (fun kv => Json.str kv.1))
  | .num _ => .error (.typeError "'int' object is not iterable")
  | .bool _ => .error (.typeError "'bool' object is not iterable")
  | .null => .error (.typeError "'NoneType' object is not iterable")

/-- The body of the `for i, s in enumerate(suggestions)` loop (lines 110-129),
for the element `s` at index `i`. -/
def normElem (i : Nat) (s : Json) : Json :=
  match s with
  | .str t =>
      .obj [("id", .str ("S" ++ toString (i + 1))),
            ("title", .str (t.take 40)),
            ("detail", .str t)]
  | .obj kvs =>
      .obj [("id", dictGetD kvs "id" (.str ("S" ++ toString (i + 1)))),
            ("title", dictGetD kvs "title" (dictGetD kvs "description" (.str "Suggestion"))),
            ("detail", dictGetD kvs "detail" (dictGetD kvs "description" (.str "")))]
  | v =>
      .obj [("id", .str ("S" ++ toString (i + 1))),
            ("title", .str "Suggestion"),
            ("detail", .str (pyStr v))]

def normLoop (i : Nat) : List Json → List Json
  | [] => []
  | s :: rest => normElem i s :: normLoop (i + 1) rest

/-- `normalize_suggestions` of src/main.py on an already-materialised list. -/
def normalize_suggestions (suggestions : List Json) : List Json :=
  normLoop 0 suggestions

/-- `normalize_suggestions` as called on an arbitrary JSON value (the function
iterates its argument, so non-iterable values raise `TypeError`). -/
def normalize_suggestionsJ (suggestions : Json) : Except PyErr (List Json) :=
  match pyIter suggestions with
  | .ok xs => .ok (normalize_suggestions xs)
  | .error e => .error e

/-- `normalize_metrics` of src/main.py on a dict argument. -/
def normalize_metrics (metrics : List (String × Json)) (language : Json)
    (code : String) : List (String × Json) :=
  let loc : Json := .num ((code.data.count '\n' : Int) + 1)
  [("language", language),
   ("loc_before", dictGetD metrics "Lines of Code Before" loc),
   ("loc_after", dictGetD metrics "Lines of Code After" loc),
   ("reduction", dictGetD metrics "Lines of Code Reduced" (.num 0)),
   ("redundant_removed", dictGetD metrics "Redundant Variables Removed" .null),
   ("security_improved", dictGetD metrics "String Input Security Improved" (.bool false))]

/-- `normalize_metrics` as called on an arbitrary JSON value: any non-dict
raises `AttributeError` at the first `.get`. -/
def normalize_metricsJ (metrics : Json) (language : Json) (code : String) :
    Except PyErr (List (String × Json)) :=
  match metrics with
  | .obj kvs => .ok (normalize_metrics kvs language code)
  | _ => .error (.attributeError "object has no attribute get")

/-! ## The `/optimize` handler (src/main.py lines 149-176) -/

/-- Lines 165-174: default filling with `setdefault` followed by the two
normalization calls, on the dict returned by `extract_json`. -/
def fill_and_normalize (parsed : List (String × Json)) (language : Json)
    (code : String) : Except PyErr (List (String × Json)) :=
  let p1 := setdefault parsed "optimized_code" (.str code)
  let p2 := setdefault p1 "suggestions" (.arr [])
  let p3 := setdefault p2 "metrics" (.obj [])
  match normalize_suggestionsJ (dictGetD p3 "suggestions" (.arr [])) with
  | .error e => .error e
  | .ok sugg =>
    let p4 := dictInsert p3 "suggestions" (.arr sugg)
    match normalize_metricsJ (dictGetD p4 "metrics" (.obj [])) language code with
    | .error e => .error e
    | .ok mets => .ok (dictInsert p4 "metrics" (.obj mets))

structure HttpResponse where
  status : Nat
  body : Json

/-- The `optimize` handler.  `data` is the parsed request body; `modelResult`
stands for the collaborator call `call_ollama` (`.error msg` when the model
call raised, carrying `str(e)`).  `Except.error` is an exception escaping the
handler (the `try` block only covers the model call and the extraction). -/
def optimize (data : List (String × Json)) (modelResult : Except String String) :
    Except PyErr HttpResponse :=
  let language := dictGetD data "language" .null
  let code := dictGetD data "code" .null
  match code with
  | .str codeStr =>
    match modelResult with
    | .error e => .ok ⟨500, .obj [("error", .str ("LLM error: " ++ e))]⟩
    | .ok raw =>
      match extract_json raw with
      | .error e =>
          .ok ⟨500, .obj [("error", .str ("LLM error: " ++ extractErrMsg e))]⟩
      | .ok (.obj kvs) =>
        match fill_and_normalize kvs language codeStr with
        | .ok body => .ok ⟨200, .obj body⟩
        | .error e => .error e
      | .ok _ => .error (.attributeError "object has no attribute setdefault")
  | _ => .ok ⟨400, .obj [("error", .str "`code` must be a string")]⟩

set_option maxRecDepth 4000 in
set_option maxHeartbeats 2000000 in
example :
    optimize [("language", .str "c"), ("code", .str "x")]
      (.ok "\x7b\"optimized_code\": \"y\", \"suggestions\": [\"use void\"], \"metrics\": \x7b\"Lines of Code Reduced\": 0\x7d\x7d") =
    .ok ⟨200, .obj
      [("optimized_code", .str "y"),
       ("suggestions", .arr [.obj [("id", .str "S1"), ("title", .str "use void"),
                                   ("detail", .str "use void")]]),
       ("metrics", .obj
         [("language", .str "c"),
          ("loc_before", .num 1),
          ("loc_after", .num 1),
          ("reduction", .num 0),
          ("redundant_removed", .null),
          ("security_improved", .bool false)])]⟩ := rfl

example :
    optimize [("code", .null)] (.ok "ignored") =
    .ok ⟨400, .obj [("error", .str "`code` must be a string")]⟩ := rfl

example :
    optimize [("code", .str "x")] (.ok "\x7b\"suggestions\": 1\x7d") =
    .error (.typeError "'int' object is not iterable") := rfl

/-! ## Specification-side definitions (worded from the spec, for refinement) -/

/-- The per-element suggestion mapping exactly as the specification words it:
strings become `id/title/detail` with the title truncated to 40 characters,
objects fall back per-field, anything else gets the stringified element. -/
def specSuggestion (i : Nat) (elem : Json) : Json :=
  match elem with
  | .str s =>
      .obj [("id", .str ("S" ++ toString (i + 1))),
            ("title", .str (s.take 40)),
            ("detail", .str s)]
  | .obj kvs =>
      .obj [("id", dictGetD kvs "id" (.str ("S" ++ toString (i + 1)))),
            ("title", dictGetD kvs "title" (dictGetD kvs "description" (.str "Suggestion"))),
            ("detail", dictGetD kvs "detail" (dictGetD kvs "description" (.str "")))]
  | other =>
      .obj [("id", .str ("S" ++ toString (i + 1))),
            ("title", .str "Suggestion"),
            ("detail", .str (pyStr other))]

/-- The metrics mapping exactly as the specification words it. -/
def specMetrics (raw : List (String × Json)) (language : Json) (code : String) :
    List (String × Json) :=
  let loc : Json := .num ((code.data.count '\n' : Int) + 1)
  [("language", language),
   ("loc_before", dictGetD raw "Lines of Code Before" loc),
   ("loc_after", dictGetD raw "Lines of Code After" loc),
   ("reduction", dictGetD raw "Lines of Code Reduced" (.num 0)),
   ("redundant_removed", dictGetD raw "Redundant Variables Removed" .null),
   ("security_improved", dictGetD raw "String Input Security Improved" (.bool false))]

/-- Values Python can iterate over (list, str, dict). -/
def pyIterable : Json → Bool
  | .arr _ => true
  | .str _ => true
  | .obj _ => true
  | _ => false

def isObjJ : Json → Bool
  | .obj _ => true
  | _ => false

def isSuggestionShape : Json → Bool
  | .obj kvs => hasKey kvs "id" && hasKey kvs "title" && hasKey kvs "detail"
  | _ => false

def metricsKeys : List String :=
  ["language", "loc_before", "loc_after", "reduction",
   "redundant_removed", "security_improved"]

/-- A structurally complete `OptimizationResponse` body: the three top-level
keys present, suggestions a list of `id/title/detail` objects, metrics a map
with the six canonical keys. -/
def structurallyComplete (body : List (String × Json)) : Bool :=
  hasKey body "optimized_code" &&
  (match dictGet? body "suggestions" with
   | some (.arr l) => l.all isSuggestionShape
   | _ => false) &&
  (match dictGet? body "metrics" with
   | some (.obj m) => metricsKeys.all (fun k => hasKey m k)
   | _ => false)

/-! ## Suggestion normalization: C5, C6 -/

theorem normElem_eq_spec (i : Nat) (s : Json) : normElem i s = specSuggestion i s := by
  cases s <;> rfl

theorem normLoop_enumFrom (xs : List Json) :
    ∀ i, normLoop i xs = (xs.enumFrom i).map (fun p => normElem p.1 p.2) := by
  induction xs with
  | nil => intro i; rfl
  | cons s tl ih => intro i; simp [normLoop, List.enumFrom, ih]

/-- C5: `normalize_suggestions` maps the element at 0-indexed position `i`
exactly as the specification describes for each of the three element shapes
(plain string, object, anything else). -/
theorem normalize_suggestions_elementwise (xs : List Json) :
    normalize_suggestions xs = xs.enum.map (fun p => specSuggestion p.1 p.2) := by
  have h := normLoop_enumFrom xs 0
  simp only [normalize_suggestions, h, List.enum]
  exact List.map_congr_left (fun p _ => normElem_eq_spec p.1 p.2)

theorem normLoop_getElem? (xs : List Json) :
    ∀ i j, (normLoop j xs)[i]? = (xs[i]?).map (fun s => normElem (j + i) s) := by
  induction xs with
  | nil => intro i j; simp [normLoop]
  | cons s tl ih =>
    intro i j
    cases i with
    | zero => simp [normLoop]
    | succ i =>
      simp only [normLoop, List.getElem?_cons_succ, ih i (j + 1)]
      have : j + 1 + i = j + (i + 1) := by omega
      rw [this]

theorem normLoop_length (xs : List Json) : ∀ j, (normLoop j xs).length = xs.length := by
  induction xs with
  | nil => intro j; rfl
  | cons s tl ih => intro j; simp [normLoop, ih]

/-- C6: suggestion normalization drops no element, preserves order, and its
output length always equals its input length; the element at position `i` of
the output is the normalization of the element at position `i` of the input. -/
theorem normalize_suggestions_length_order (xs : List Json) :
    (normalize_suggestions xs).length = xs.length ∧
      ∀ i : Nat, (normalize_suggestions xs)[i]? = (xs[i]?).map (fun s => normElem i s) := by
  constructor
  · exact normLoop_length xs 0
  · intro i
    have h := normLoop_getElem? xs i 0
    simpa using h

/-- C7: `normalize_metrics` computes `loc` as newline count plus one, fills
each canonical key from the loosely-named raw key with the documented
fallback, and always takes `language` from the caller, never from `raw`. -/
theorem normalize_metrics_spec (raw : List (String × Json)) (language : Json)
    (code : String) :
    normalize_metrics raw language code = specMetrics raw language code ∧
      dictGet? (normalize_metrics raw language code) "language" = some language := by
  exact ⟨rfl, rfl⟩

example :
    normalize_metrics [] (.str "c") "a\nb\nc" =
      [("language", .str "c"), ("loc_before", .num 3), ("loc_after", .num 3),
       ("reduction", .num 0), ("redundant_removed", .null),
       ("security_improved", .bool false)] := rfl

/-! ## Dictionary lemmas -/

theorem dictGet?_nil (k : String) : dictGet? [] k = none := rfl

theorem dictGet?_cons (q : String × Json) (l : List (String × Json)) (k : String) :
    dictGet? (q :: l) k = if q.1 = k then some q.2 else dictGet? l k := by
  by_cases hq : q.1 = k
  · simp [dictGet?, List.find?_cons_of_pos, hq]
  · simp [dictGet?, List.find?_cons_of_neg, hq]

theorem hasKey_cons (q : String × Json) (l : List (String × Json)) (k : String) :
    hasKey (q :: l) k = if q.1 = k then true else hasKey l k := by
  by_cases hq : q.1 = k
  · simp [hasKey, List.find?_cons_of_pos, hq]
  · simp [hasKey, List.find?_cons_of_neg, hq]

theorem dictGet?_none_of_not_hasKey (l : List (String × Json)) (k : String)
    (h : hasKey l k = false) : dictGet? l k = none := by
  induction l with
  | nil => rfl
  | cons q tl ih =>
    rw [hasKey_cons] at h
    rw [dictGet?_cons]
    by_cases hq : q.1 = k
    · simp [hq] at h
    · simp only [hq, if_false]
      exact ih (by simpa [hq] using h)

theorem hasKey_of_dictGet? (l : List (String × Json)) (k : String) (v : Json)
    (h : dictGet? l k = some v) : hasKey l k = true := by
  induction l with
  | nil => simp [dictGet?_nil] at h
  | cons q tl ih =>
    rw [dictGet?_cons] at h
    rw [hasKey_cons]
    by_cases hq : q.1 = k
    · simp [hq]
    · simp only [hq, if_false] at h ⊢
      exact ih h

theorem dictGet?_append_single_self (l : List (String × Json)) (k : String) (v : Json)
    (h : hasKey l k = false) : dictGet? (l ++ [(k, v)]) k = some v := by
  induction l with
  | nil => simp [dictGet?_cons]
  | cons q tl ih =>
    rw [hasKey_cons] at h
    by_cases hq : q.1 = k
    · simp [hq] at h
    · rw [List.cons_append, dictGet?_cons]
      simp only [hq, if_false]
      exact ih (by simpa [hq] using h)

theorem dictGet?_append_single_ne (l : List (String × Json)) (k k' : String) (v : Json)
    (h : k' ≠ k) : dictGet? (l ++ [(k', v)]) k = dictGet? l k := by
  induction l with
  | nil => simp [dictGet?_cons, dictGet?_nil, h]
  | cons q tl ih =>
    rw [List.cons_append, dictGet?_cons, dictGet?_cons]
    by_cases hq : q.1 = k
    · simp [hq]
    · simp only [hq, if_false]
      exact ih

theorem dictGet?_setdefault_ne (l : List (String × Json)) (k k' : String) (v : Json)
    (h : k' ≠ k) : dictGet? (setdefault l k' v) k = dictGet? l k := by
  unfold setdefault
  by_cases hk : hasKey l k'
  · simp [hk]
  · have hk' : hasKey l k' = false := by simpa using hk
    simp only [hk', Bool.false_eq_true, if_false]
    exact dictGet?_append_single_ne l k k' v h

theorem dictGetD_setdefault_self (l : List (String × Json)) (k : String) (v : Json) :
    dictGetD (setdefault l k v) k v = dictGetD l k v := by
  unfold setdefault dictGetD
  by_cases hk : hasKey l k
  · simp [hk]
  · have hk' : hasKey l k = false := by simpa using hk
    simp only [hk', Bool.false_eq_true, if_false]
    rw [dictGet?_append_single_self l k v hk', dictGet?_none_of_not_hasKey l k hk']
    rfl

theorem dictGet?_map_replace_self (l : List (String × Json)) (k : String) (v : Json)
    (h : hasKey l k = true) :
    dictGet? (l.map (fun p => if p.1 = k then (k, v) else p)) k = some v := by
  induction l with
  | nil => simp [hasKey] at h
  | cons q tl ih =>
    rw [hasKey_cons] at h
    by_cases hq : q.1 = k
    · simp [hq, dictGet?_cons]
    · simp only [List.map_cons, hq, if_false, dictGet?_cons]
      exact ih (by simpa [hq] using h)

theorem dictGet?_map_replace_ne (l : List (String × Json)) (k k' : String) (v : Json)
    (h : k' ≠ k) :
    dictGet? (l.map (fun p => if p.1 = k' then (k', v) else p)) k = dictGet? l k := by
  induction l with
  | nil => rfl
  | cons q tl ih =>
    by_cases hq : q.1 = k'
    · have hqk : ¬ q.1 = k := by rw [hq]; exact h
      simp only [List.map_cons, hq, if_true, dictGet?_cons]
      simp only [hqk, if_false, h, ih]
    · simp only [List.map_cons, hq, if_false, dictGet?_cons, ih]

theorem dictGet?_insert_self (l : List (String × Json)) (k : String) (v : Json) :
    dictGet? (dictInsert l k v) k = some v := by
  unfold dictInsert
  by_cases hk : hasKey l k
  · simp only [hk, if_true]
    exact dictGet?_map_replace_self l k v hk
  · have hk' : hasKey l k = false := by simpa using hk
    simp only [hk', Bool.false_eq_true, if_false]
    exact dictGet?_append_single_self l k v hk'

theorem dictGet?_insert_ne (l : List (String × Json)) (k k' : String) (v : Json)
    (h : k' ≠ k) : dictGet? (dictInsert l k' v) k = dictGet? l k := by
  unfold dictInsert
  by_cases hk : hasKey l k'
  · simp only [hk, if_true]
    exact dictGet?_map_replace_ne l k k' v h
  · have hk' : hasKey l k' = false := by simpa using hk
    simp only [hk', Bool.false_eq_true, if_false]
    exact dictGet?_append_single_ne l k k' v h

theorem hasKey_setdefault_mono (l : List (String × Json)) (k k' : String) (v : Json)
    (h : hasKey l k = true) : hasKey (setdefault l k' v) k = true := by
  have hsome : ∃ w, dictGet? l k = some w := by
    unfold hasKey at h
    unfold dictGet?
    cases hfind : List.find? (fun p => p.1 = k) l with
    | none => rw [hfind] at h; simp at h
    | some p => exact ⟨p.2, rfl⟩
  obtain ⟨w, hw⟩ := hsome
  by_cases hkk : k' = k
  · subst hkk
    unfold setdefault
    simp [h]
  · have := dictGet?_setdefault_ne l k k' v hkk
    exact hasKey_of_dictGet? _ _ w (this ▸ hw)

theorem hasKey_insert_mono (l : List (String × Json)) (k k' : String) (v : Json)
    (h : hasKey l k = true) : hasKey (dictInsert l k' v) k = true := by
  by_cases hkk : k' = k
  · subst hkk
    exact hasKey_of_dictGet? _ _ v (dictGet?_insert_self l k' v)
  · have hsome : ∃ w, dictGet? l k = some w := by
      unfold hasKey at h
      unfold dictGet?
      cases hfind : List.find? (fun p => p.1 = k) l with
      | none => rw [hfind] at h; simp at h
      | some p => exact ⟨p.2, rfl⟩
    obtain ⟨w, hw⟩ := hsome
    have := dictGet?_insert_ne l k k' v hkk
    exact hasKey_of_dictGet? _ _ w (this ▸ hw)

theorem hasKey_setdefault_self (l : List (String × Json)) (k : String) (v : Json) :
    hasKey (setdefault l k v) k = true := by
  unfold setdefault
  by_cases hk : hasKey l k
  · simp [hk]
  · have hk' : hasKey l k = false := by simpa using hk
    simp only [hk', Bool.false_eq_true, if_false]
    exact hasKey_of_dictGet? _ _ v (dictGet?_append_single_self l k v hk')

/-! ## C1: default filling plus normalization -/

theorem pyIter_of_iterable (v : Json) (h : pyIterable v = true) :
    ∃ xs, pyIter v = .ok xs := by
  cases v with
  | arr xs => exact ⟨xs, rfl⟩
  | str s => exact ⟨_, rfl⟩
  | obj kvs => exact ⟨_, rfl⟩
  | null => simp [pyIterable] at h
  | bool b => simp [pyIterable] at h
  | num n => simp [pyIterable] at h

theorem isObjJ_elim (v : Json) (h : isObjJ v = true) : ∃ kvs, v = .obj kvs := by
  cases v with
  | obj kvs => exact ⟨kvs, rfl⟩
  | null => simp [isObjJ] at h
  | bool b => simp [isObjJ] at h
  | num n => simp [isObjJ] at h
  | str s => simp [isObjJ] at h
  | arr xs => simp [isObjJ] at h

theorem isSuggestionShape_normElem (i : Nat) (s : Json) :
    isSuggestionShape (normElem i s) = true := by
  cases s <;> rfl

theorem normLoop_all_shape (xs : List Json) :
    ∀ j, (normLoop j xs).all isSuggestionShape = true := by
  induction xs with
  | nil => intro j; rfl
  | cons s tl ih => intro j; simp [normLoop, List.all_cons, isSuggestionShape_normElem, ih]

theorem lookup_sugg_after_defaults (kvs : List (String × Json)) (code : String) :
    dictGetD (setdefault (setdefault (setdefault kvs "optimized_code" (.str code))
        "suggestions" (.arr [])) "metrics" (.obj [])) "suggestions" (.arr []) =
      dictGetD kvs "suggestions" (.arr []) := by
  have e1 := dictGet?_setdefault_ne
    (setdefault (setdefault kvs "optimized_code" (.str code)) "suggestions" (.arr []))
    "suggestions" "metrics" (.obj []) (by decide)
  have e2 := dictGetD_setdefault_self (setdefault kvs "optimized_code" (.str code))
    "suggestions" (.arr [])
  have e3 := dictGet?_setdefault_ne kvs "suggestions" "optimized_code" (.str code)
    (by decide)
  unfold dictGetD at e2 ⊢
  rw [e1, e2, e3]

theorem lookup_metrics_after (kvs : List (String × Json)) (code : String)
    (sv : Json) :
    dictGetD (dictInsert (setdefault (setdefault (setdefault kvs "optimized_code"
        (.str code)) "suggestions" (.arr [])) "metrics" (.obj []))
        "suggestions" sv) "metrics" (.obj []) =
      dictGetD kvs "metrics" (.obj []) := by
  have e0 := dictGet?_insert_ne
    (setdefault (setdefault (setdefault kvs "optimized_code" (.str code))
      "suggestions" (.arr [])) "metrics" (.obj []))
    "metrics" "suggestions" sv (by decide)
  have e1 := dictGetD_setdefault_self
    (setdefault (setdefault kvs "optimized_code" (.str code)) "suggestions" (.arr []))
    "metrics" (.obj [])
  have e2 := dictGet?_setdefault_ne (setdefault kvs "optimized_code" (.str code))
    "metrics" "suggestions" (.arr []) (by decide)
  have e3 := dictGet?_setdefault_ne kvs "metrics" "optimized_code" (.str code)
    (by decide)
  unfold dictGetD at e1 ⊢
  rw [e0, e1, e2, e3]

theorem fill_and_normalize_eq (kvs : List (String × Json)) (language : Json)
    (code : String) (xs : List Json) (mvs : List (String × Json))
    (hx : pyIter (dictGetD kvs "suggestions" (.arr [])) = .ok xs)
    (hm : dictGetD kvs "metrics" (.obj []) = .obj mvs) :
    fill_and_normalize kvs language code =
      .ok (dictInsert
            (dictInsert
              (setdefault (setdefault (setdefault kvs "optimized_code" (.str code))
                "suggestions" (.arr [])) "metrics" (.obj []))
              "suggestions" (.arr (normalize_suggestions xs)))
            "metrics" (.obj (normalize_metrics mvs language code))) := by
  unfold fill_and_normalize
  dsimp only []
  rw [lookup_sugg_after_defaults]
  unfold normalize_suggestionsJ
  rw [hx]
  dsimp only []
  rw [lookup_metrics_after]
  rw [hm]
  rfl

theorem metrics_keys_complete (m : List (String × Json)) (language : Json)
    (code : String) :
    metricsKeys.all (fun k => hasKey (normalize_metrics m language code) k) = true := rfl

/-- C1 (amended): once extraction succeeds, the default-filling and
normalization steps complete without error and yield a structurally complete
`OptimizationResponse` PROVIDED the extracted object's `suggestions` field (if
present) is a list, string or object and its `metrics` field (if present) is
an object; a `suggestions` field of any other type raises `TypeError` inside
`normalize_suggestions` and a non-object `metrics` raises `AttributeError`
inside `normalize_metrics` (see the counterexample). -/
theorem fill_and_normalize_total (kvs : List (String × Json)) (language : Json)
    (code : String)
    (hs : pyIterable (dictGetD kvs "suggestions" (.arr [])) = true)
    (hm : isObjJ (dictGetD kvs "metrics" (.obj [])) = true) :
    ∃ body, fill_and_normalize kvs language code = .ok body ∧
      structurallyComplete body = true := by
  obtain ⟨xs, hxs⟩ := pyIter_of_iterable _ hs
  obtain ⟨mvs, hmvs⟩ := isObjJ_elim _ hm
  refine ⟨_, fill_and_normalize_eq kvs language code xs mvs hxs hmvs, ?_⟩
  have hoc : hasKey (dictInsert
      (dictInsert
        (setdefault (setdefault (setdefault kvs "optimized_code" (.str code))
          "suggestions" (.arr [])) "metrics" (.obj []))
        "suggestions" (.arr (normalize_suggestions xs)))
      "metrics" (.obj (normalize_metrics mvs language code))) "optimized_code" = true := by
    apply hasKey_insert_mono
    apply hasKey_insert_mono
    apply hasKey_setdefault_mono
    apply hasKey_setdefault_mono
    exact hasKey_setdefault_self kvs "optimized_code" (.str code)
  have hsg : dictGet? (dictInsert
      (dictInsert
        (setdefault (setdefault (setdefault kvs "optimized_code" (.str code))
          "suggestions" (.arr [])) "metrics" (.obj []))
        "suggestions" (.arr (normalize_suggestions xs)))
      "metrics" (.obj (normalize_metrics mvs language code))) "suggestions" =
      some (.arr (normalize_suggestions xs)) := by
    rw [dictGet?_insert_ne _ _ _ _ (by decide)]
    exact dictGet?_insert_self _ _ _
  have hmt : dictGet? (dictInsert
      (dictInsert
        (setdefault (setdefault (setdefault kvs "optimized_code" (.str code))
          "suggestions" (.arr [])) "metrics" (.obj []))
        "suggestions" (.arr (normalize_suggestions xs)))
      "metrics" (.obj (normalize_metrics mvs language code))) "metrics" =
      some (.obj (normalize_metrics mvs language code)) :=
    dictGet?_insert_self _ _ _
  unfold structurallyComplete
  rw [hoc, hsg, hmt]
  simp only [Bool.true_and]
  rw [metrics_keys_complete]
  simp only [Bool.and_true]
  exact normLoop_all_shape xs 0

/-- C1 counterexample: the spec claims normalization never fails regardless of
the shape of sub-fields, but an extracted object whose `suggestions` field is
the number `1` makes `normalize_suggestions` iterate over an `int`, raising
`TypeError` (uncaught by the handler's `try`). -/
theorem fill_and_normalize_cex :
    fill_and_normalize [("suggestions", .num 1)] .null "x" =
      .error (.typeError "'int' object is not iterable") := rfl

/-- Witness for the amended C1 theorem at the empty extracted object. -/
theorem fill_and_normalize_total_witness :
    pyIterable (dictGetD ([] : List (String × Json)) "suggestions" (.arr [])) = true ∧
    isObjJ (dictGetD ([] : List (String × Json)) "metrics" (.obj [])) = true ∧
    ∃ body, fill_and_normalize [] .null "x" = .ok body ∧
      structurallyComplete body = true :=
  ⟨rfl, rfl, fill_and_normalize_total [] .null "x" rfl rfl⟩

/-! ## C10: successful extraction always yields a JSON object -/

theorem dropWhile_head_brace (t : List Char) (c : Char) (rest : List Char)
    (h : t.dropWhile (fun c => !(c == '\x7b')) = c :: rest) : c = '\x7b' := by
  induction t with
  | nil => simp [List.dropWhile] at h
  | cons a tl ih =>
    rw [List.dropWhile_cons] at h
    by_cases ha : a = '\x7b'
    · simp only [ha] at h
      simp at h
      exact h.1.symm
    · have : (!(a == '\x7b')) = true := by simp [ha]
      rw [this] at h
      simp only [if_true] at h
      exact ih h

theorem scanBalanced_brace_head (rest : List Char) (cand : List Char)
    (h : scanBalanced 0 ('\x7b' :: rest) = some cand) :
    ∃ p, cand = '\x7b' :: p := by
  unfold scanBalanced at h
  simp only [if_pos rfl] at h
  cases hsc : scanBalanced (0 + 1) rest with
  | none => rw [hsc] at h; simp at h
  | some p => rw [hsc] at h; simp at h; exact ⟨p, h.symm⟩

theorem parseValue_brace_obj (fuel : Nat) (p r : List Char) (v : Json)
    (h : parseValue fuel ('\x7b' :: p) = .ok (v, r)) : ∃ kvs, v = .obj kvs := by
  match fuel with
  | 0 => simp [parseValue] at h
  | f + 1 =>
    unfold parseValue at h
    have hskip : skipWs ('\x7b' :: p) = '\x7b' :: p := by
      simp [skipWs, List.dropWhile, jsonWs]
    rw [hskip] at h
    simp only [reduceIte] at h
    by_cases hh : (skipWs p).head? = some '\x7d'
    · rw [if_pos hh] at h
      simp only [Except.ok.injEq, Prod.mk.injEq] at h
      exact ⟨[], h.1.symm⟩
    · rw [if_neg hh] at h
      cases hm : parseMembers f (skipWs p) with
      | error e => rw [hm] at h; simp at h
      | ok q =>
        rw [hm] at h
        simp only [Except.ok.injEq, Prod.mk.injEq] at h
        exact ⟨buildDict q.1, h.1.symm⟩

theorem json_loads_brace_obj (cand : List Char) (v : Json)
    (hhead : ∃ p, cand = '\x7b' :: p)
    (h : json_loads (String.mk cand) = .ok v) : ∃ kvs, v = .obj kvs := by
  obtain ⟨p, rfl⟩ := hhead
  unfold json_loads at h
  cases hp : parseValue ((String.mk ('\x7b' :: p)).length + 1) (String.mk ('\x7b' :: p)).data with
  | error e => rw [hp] at h; simp at h
  | ok wr =>
    obtain ⟨w, rest⟩ := wr
    rw [hp] at h
    dsimp only [] at h
    by_cases he : (skipWs rest).isEmpty
    · rw [if_pos he] at h
      simp only [Except.ok.injEq] at h
      subst h
      exact parseValue_brace_obj _ p rest _ (by simpa using hp)
    · rw [if_neg he] at h
      simp at h

/-- C10: whenever `extract_json` returns without raising, its result is a JSON
object (never a scalar, string or list), because the candidate substring
always begins with `{` and parses successfully; so the caller's
`setdefault`-based default filling is always applicable to it. -/
theorem extract_json_returns_object (text : String) (v : Json)
    (h : extract_json text = .ok v) : ∃ kvs, v = .obj kvs := by
  unfold extract_json extractSuffix at h
  dsimp only [] at h
  cases hdw : (stripFences text.data).dropWhile (fun c => !(c == '\x7b')) with
  | nil => rw [hdw] at h; simp at h
  | cons c rest =>
    rw [hdw] at h
    rw [if_neg (by simp [List.isEmpty])] at h
    have hc : c = '\x7b' := dropWhile_head_brace _ c rest hdw
    subst hc
    cases hsc : scanBalanced 0 ('\x7b' :: rest) with
    | none => rw [hsc] at h; simp at h
    | some cand =>
      rw [hsc] at h
      dsimp only [] at h
      cases hjl : json_loads (String.mk cand) with
      | error e => rw [hjl] at h; simp at h
      | ok w =>
        rw [hjl] at h
        simp only [Except.ok.injEq] at h
        subst h
        exact json_loads_brace_obj cand w (scanBalanced_brace_head rest cand hsc) hjl

/-- Witness for C10 at a concrete input. -/
theorem extract_json_returns_object_witness :
    extract_json "\x7b\x7d" = .ok (.obj []) ∧
      ∃ kvs, (Json.obj [] : Json) = .obj kvs :=
  ⟨rfl, extract_json_returns_object "\x7b\x7d" (.obj []) rfl⟩

/-! ## C9: missing `optimized_code` defaults to the request's code -/

theorem fill_preserves_optimized_code (kvs : List (String × Json)) (language : Json)
    (codeStr : String) (body : List (String × Json))
    (hnokey : hasKey kvs "optimized_code" = false)
    (h : fill_and_normalize kvs language codeStr = .ok body) :
    dictGet? body "optimized_code" = some (.str codeStr) := by
  unfold fill_and_normalize at h
  dsimp only [] at h
  cases hns : normalize_suggestionsJ (dictGetD (setdefault (setdefault (setdefault kvs
      "optimized_code" (.str codeStr)) "suggestions" (.arr [])) "metrics" (.obj []))
      "suggestions" (.arr [])) with
  | error e => rw [hns] at h; simp at h
  | ok sugg =>
    rw [hns] at h
    dsimp only [] at h
    cases hnm : normalize_metricsJ (dictGetD (dictInsert (setdefault (setdefault
        (setdefault kvs "optimized_code" (.str codeStr)) "suggestions" (.arr []))
        "metrics" (.obj [])) "suggestions" (.arr sugg)) "metrics" (.obj []))
        language codeStr with
    | error e => rw [hnm] at h; simp at h
    | ok mets =>
      rw [hnm] at h
      simp only [Except.ok.injEq] at h
      subst h
      rw [dictGet?_insert_ne _ _ _ _ (by decide)]
      rw [dictGet?_insert_ne _ _ _ _ (by decide)]
      rw [dictGet?_setdefault_ne _ _ _ _ (by decide)]
      rw [dictGet?_setdefault_ne _ _ _ _ (by decide)]
      unfold setdefault
      rw [if_neg (by simp [hnokey])]
      exact dictGet?_append_single_self kvs "optimized_code" (.str codeStr) hnokey

/-- C9: for every successful request whose extracted JSON object has no
`optimized_code` key, the 200 response body's `optimized_code` equals the
request's original `code` string unchanged (the input code is the default). -/
theorem optimize_default_optimized_code (data : List (String × Json))
    (codeStr raw : String) (kvs : List (String × Json)) (r : HttpResponse)
    (hcode : dictGetD data "code" .null = .str codeStr)
    (hext : extract_json raw = .ok (.obj kvs))
    (hnokey : hasKey kvs "optimized_code" = false)
    (hrun : optimize data (.ok raw) = .ok r) :
    r.status = 200 ∧ ∃ body, r.body = .obj body ∧
      dictGet? body "optimized_code" = some (.str codeStr) := by
  unfold optimize at hrun
  dsimp only [] at hrun
  rw [hcode] at hrun
  dsimp only [] at hrun
  rw [hext] at hrun
  dsimp only [] at hrun
  cases hfn : fill_and_normalize kvs (dictGetD data "language" .null) codeStr with
  | error e => rw [hfn] at hrun; simp at hrun
  | ok body =>
    rw [hfn] at hrun
    simp only [Except.ok.injEq] at hrun
    subst hrun
    exact ⟨rfl, body, rfl, fill_preserves_optimized_code kvs _ codeStr body hnokey hfn⟩

/-- Witness for C9 at a concrete request and model output. -/
theorem optimize_default_optimized_code_witness :
    dictGetD [("language", Json.str "c"), ("code", Json.str "x")] "code" .null =
      .str "x" ∧
    extract_json "\x7b\x7d" = .ok (.obj []) ∧
    hasKey ([] : List (String × Json)) "optimized_code" = false ∧
    optimize [("language", Json.str "c"), ("code", Json.str "x")] (.ok "\x7b\x7d") =
      .ok ⟨200, .obj
        [("optimized_code", .str "x"),
         ("suggestions", .arr []),
         ("metrics", .obj
           [("language", .str "c"), ("loc_before", .num 1), ("loc_after", .num 1),
            ("reduction", .num 0), ("redundant_removed", .null),
            ("security_improved", .bool false)])]⟩ ∧
    ((⟨200, .obj
        [("optimized_code", .str "x"),
         ("suggestions", .arr []),
         ("metrics", .obj
           [("language", .str "c"), ("loc_before", .num 1), ("loc_after", .num 1),
            ("reduction", .num 0), ("redundant_removed", .null),
            ("security_improved", .bool false)])]⟩ : HttpResponse).status = 200 ∧
      ∃ body, (⟨200, .obj
        [("optimized_code", .str "x"),
         ("suggestions", .arr []),
         ("metrics", .obj
           [("language", .str "c"), ("loc_before", .num 1), ("loc_after", .num 1),
            ("reduction", .num 0), ("redundant_removed", .null),
            ("security_improved", .bool false)])]⟩ : HttpResponse).body = .obj body ∧
        dictGet? body "optimized_code" = some (.str "x")) :=
  ⟨rfl, rfl, rfl, rfl,
    optimize_default_optimized_code [("language", Json.str "c"), ("code", Json.str "x")]
      "x" "\x7b\x7d" [] _ rfl rfl rfl rfl⟩

/-! ## C8: the handler's response cases -/

/-- C8 (amended): a missing or non-string `code` yields 400 with the
documented body for ANY model outcome (so no core logic can influence it); a
failed model call or failed extraction yields 500 wrapping the underlying
message; when extraction succeeds AND the default-filling/normalization step
succeeds, the response is 200 with the normalized body.  (The original claim's
unconditional 200 branch is false: when normalization raises, the exception
escapes the handler — see the counterexample.) -/
theorem optimize_cases :
    (∀ (data : List (String × Json)) (m : Except String String),
       (∀ s, dictGetD data "code" .null ≠ .str s) →
       optimize data m =
         .ok ⟨400, .obj [("error", .str "`code` must be a string")]⟩) ∧
    (∀ (data : List (String × Json)) (s msg : String),
       dictGetD data "code" .null = .str s →
       optimize data (.error msg) =
         .ok ⟨500, .obj [("error", .str ("LLM error: " ++ msg))]⟩) ∧
    (∀ (data : List (String × Json)) (s raw : String) (e : ExtractErr),
       dictGetD data "code" .null = .str s →
       extract_json raw = .error e →
       optimize data (.ok raw) =
         .ok ⟨500, .obj [("error", .str ("LLM error: " ++ extractErrMsg e))]⟩) ∧
    (∀ (data : List (String × Json)) (s raw : String)
       (kvs body : List (String × Json)),
       dictGetD data "code" .null = .str s →
       extract_json raw = .ok (.obj kvs) →
       fill_and_normalize kvs (dictGetD data "language" .null) s = .ok body →
       optimize data (.ok raw) = .ok ⟨200, .obj body⟩) := by
  refine ⟨?_, ?_, ?_, ?_⟩
  · intro data m h
    unfold optimize
    dsimp only []
    cases hv : dictGetD data "code" .null with
    | str s => exact absurd hv (h s)
    | null => rfl
    | bool b => rfl
    | num n => rfl
    | arr xs => rfl
    | obj kvs => rfl
  · intro data s msg hcode
    unfold optimize
    dsimp only []
    rw [hcode]
  · intro data s raw e hcode hext
    unfold optimize
    dsimp only []
    rw [hcode]
    dsimp only []
    rw [hext]
  · intro data s raw kvs body hcode hext hfill
    unfold optimize
    dsimp only []
    rw [hcode]
    dsimp only []
    rw [hext]
    dsimp only []
    rw [hfill]

/-- C8 counterexample: a valid string `code` with model output
`{"suggestions": 1}` — extraction succeeds, but normalization raises
`TypeError`, which the handler does not catch (its `try` covers only the
model call and the extraction), so the request produces neither a 200 nor a
wrapped `LLM error:` 500 body. -/
theorem optimize_cex :
    optimize [("code", .str "x")] (.ok "\x7b\"suggestions\": 1\x7d") =
      .error (.typeError "'int' object is not iterable") ∧
    ∀ r : HttpResponse,
      optimize [("code", .str "x")] (.ok "\x7b\"suggestions\": 1\x7d") ≠ .ok r := by
  refine ⟨rfl, fun r h => ?_⟩
  rw [show optimize [("code", .str "x")] (.ok "\x7b\"suggestions\": 1\x7d") =
      .error (.typeError "'int' object is not iterable") from rfl] at h
  exact Except.noConfusion h

/-- Witness for the amended C8 theorem: one concrete run per branch. -/
theorem optimize_cases_witness :
    optimize [] (.ok "ignored") =
      .ok ⟨400, .obj [("error", .str "`code` must be a string")]⟩ ∧
    optimize [("code", .str "x")] (.error "boom") =
      .ok ⟨500, .obj [("error", .str "LLM error: boom")]⟩ ∧
    optimize [("code", .str "x")] (.ok "no json here") =
      .ok ⟨500, .obj [("error", .str "LLM error: No JSON detected in LLM response")]⟩ ∧
    optimize [("code", .str "x")] (.ok "\x7b\x7d") =
      .ok ⟨200, .obj
        [("optimized_code", .str "x"),
         ("suggestions", .arr []),
         ("metrics", .obj
           [("language", .null), ("loc_before", .num 1), ("loc_after", .num 1),
            ("reduction", .num 0), ("redundant_removed", .null),
            ("security_improved", .bool false)])]⟩ :=
  ⟨optimize_cases.1 [] (.ok "ignored")
      (fun s h => Json.noConfusion (h : Json.null = Json.str s)),
   optimize_cases.2.1 [("code", .str "x")] "x" "boom" rfl,
   optimize_cases.2.2.1 [("code", .str "x")] "x" "no json here" .noJson rfl rfl,
   optimize_cases.2.2.2 [("code", .str "x")] "x" "\x7b\x7d" [] _ rfl rfl rfl⟩

/-! ## The brace-depth scan, declaratively (for C2 and C3) -/

/-- Contribution of one character to the brace nesting depth. -/
def charDelta (c : Char) : Int :=
  if c = '\x7b' then 1 else if c = '\x7d' then -1 else 0

def braceDelta : List Char → Int
  | [] => 0
  | c :: cs => charDelta c + braceDelta cs

/-- The depth scan started at depth `d` first returns to zero after exactly
`n` characters of `cs`: the `n`-th character is a `}` and it brings the
running depth to zero. -/
abbrev stopsAt (d : Int) (cs : List Char) (n : Nat) : Prop :=
  0 < n ∧ n ≤ cs.length ∧ (cs.take n).getLast? = some '\x7d' ∧
    d + braceDelta (cs.take n) = 0

theorem getLast?_cons_ne_nil (a : Char) (l : List Char) (h : l ≠ []) :
    (a :: l).getLast? = l.getLast? := by
  cases l with
  | nil => exact absurd rfl h
  | cons b tl => exact List.getLast?_cons_cons

theorem take_ne_nil_of_pos (l : List Char) (n : Nat) (hn : 0 < n) (hl : l ≠ []) :
    l.take n ≠ [] := by
  cases l with
  | nil => exact absurd rfl hl
  | cons a tl =>
    cases n with
    | zero => omega
    | succ m => simp [List.take_succ_cons]

/-- Soundness of the scan loop: if `n` is the least stopping point, the scan
returns the first `n` characters. -/
theorem scan_eq_of_least (cs : List Char) :
    ∀ (d : Int) (n : Nat), stopsAt d cs n → (∀ m, m < n → ¬ stopsAt d cs m) →
      scanBalanced d cs = some (cs.take n) := by
  induction cs with
  | nil =>
    intro d n hstop _
    obtain ⟨h1, h2, _, _⟩ := hstop
    simp at h2
    omega
  | cons c tl ih =>
    intro d n hstop hleast
    obtain ⟨h1, h2, h3, h4⟩ := hstop
    cases n with
    | zero => omega
    | succ m =>
      cases m with
      | zero =>
        have hc : c = '\x7d' := by
          simp [List.take_succ_cons] at h3
          exact h3
        have hd : d + charDelta c = 0 := by
          simp [List.take_succ_cons, braceDelta] at h4
          omega
        subst hc
        unfold scanBalanced
        rw [if_neg (by decide)]
        rw [if_pos rfl]
        have : d - 1 = 0 := by
          simp [charDelta] at hd
          omega
        rw [if_pos this]
        rfl
      | succ m' =>
        have htl_ne : tl ≠ [] := by
          intro hc
          subst hc
          simp at h2
        have htake_ne : tl.take (m' + 1) ≠ [] :=
          take_ne_nil_of_pos tl (m' + 1) (by omega) htl_ne
        have h3' : (tl.take (m' + 1)).getLast? = some '\x7d' := by
          rw [List.take_succ_cons, getLast?_cons_ne_nil c _ htake_ne] at h3
          exact h3
        have h4' : (d + charDelta c) + braceDelta (tl.take (m' + 1)) = 0 := by
          rw [List.take_succ_cons] at h4
          simp [braceDelta] at h4
          omega
        have hstop' : stopsAt (d + charDelta c) tl (m' + 1) :=
          ⟨by omega, by simp at h2; omega, h3', h4'⟩
        have hleast' : ∀ k, k < m' + 1 → ¬ stopsAt (d + charDelta c) tl k := by
          intro k hk hstopk
          obtain ⟨k1, k2, k3, k4⟩ := hstopk
          cases k with
          | zero => omega
          | succ k' =>
            apply hleast (k' + 2) (by omega)
            refine ⟨by omega, by simp; omega, ?_, ?_⟩
            · rw [List.take_succ_cons, getLast?_cons_ne_nil c _
                (take_ne_nil_of_pos tl (k' + 1) (by omega) htl_ne)]
              exact k3
            · rw [List.take_succ_cons]
              simp [braceDelta]
              omega
        have hrec := ih (d + charDelta c) (m' + 1) hstop' hleast'
        have hne_stop1 : d + charDelta c ≠ 0 ∨ c ≠ '\x7d' := by
          by_cases hc : c = '\x7d'
          · left
            intro hz
            apply hleast 1 (by omega)
            refine ⟨by omega, by simp, ?_, ?_⟩
            · simp [List.take_succ_cons, hc]
            · simp [List.take_succ_cons, braceDelta]
              omega
          · right; exact hc
        unfold scanBalanced
        by_cases hcb : c = '\x7b'
        · rw [if_pos hcb]
          have : charDelta c = 1 := by simp [charDelta, hcb]
          rw [this] at hrec
          rw [hrec]
          simp [List.take_succ_cons, hcb]
        · rw [if_neg hcb]
          by_cases hcd : c = '\x7d'
          · rw [if_pos hcd]
            have hdelta : charDelta c = -1 := by
              simp [charDelta, hcb, hcd]
            have hdne : ¬ (d - 1 = 0) := by
              rcases hne_stop1 with hne | hne
              · rw [hdelta] at hne; omega
              · exact absurd hcd hne
            rw [if_neg hdne]
            rw [hdelta] at hrec
            rw [show d + -1 = d - 1 from by omega] at hrec
            rw [hrec]
            simp [List.take_succ_cons]
          · rw [if_neg hcd]
            have : charDelta c = 0 := by simp [charDelta, hcb, hcd]
            rw [this] at hrec
            simp only [Int.add_zero] at hrec
            rw [hrec]
            simp [List.take_succ_cons]

theorem stopsAt_cons_succ (c : Char) (tl : List Char) (d : Int) (k : Nat)
    (htl : tl ≠ []) (hk : 0 < k) :
    stopsAt d (c :: tl) (k + 1) ↔ stopsAt (d + charDelta c) tl k := by
  constructor
  · rintro ⟨a, b, g, e⟩
    refine ⟨hk, by simp at b; omega, ?_, ?_⟩
    · rw [List.take_succ_cons, getLast?_cons_ne_nil c _
        (take_ne_nil_of_pos tl k hk htl)] at g
      exact g
    · rw [List.take_succ_cons] at e
      simp only [braceDelta] at e
      omega
  · rintro ⟨a, b, g, e⟩
    refine ⟨by omega, by simp; omega, ?_, ?_⟩
    · rw [List.take_succ_cons, getLast?_cons_ne_nil c _
        (take_ne_nil_of_pos tl k hk htl)]
      exact g
    · rw [List.take_succ_cons]
      simp only [braceDelta]
      omega

theorem stopsAt_cons_one (c : Char) (tl : List Char) (d : Int) :
    stopsAt d (c :: tl) 1 ↔ (c = '\x7d' ∧ d + charDelta c = 0) := by
  constructor
  · rintro ⟨_, _, g, e⟩
    rw [List.take_succ_cons, List.take_zero] at g e
    simp at g
    simp only [braceDelta] at e
    exact ⟨g, by omega⟩
  · rintro ⟨hc, he⟩
    refine ⟨by omega, by simp, ?_, ?_⟩
    · rw [List.take_succ_cons, List.take_zero]
      simp [hc]
    · rw [List.take_succ_cons, List.take_zero]
      simp only [braceDelta]
      omega

theorem scan_none_of_no_stop (cs : List Char) :
    ∀ d : Int, (∀ n, ¬ stopsAt d cs n) → scanBalanced d cs = none := by
  induction cs with
  | nil => intro d _; rfl
  | cons c tl ih =>
    intro d h
    have htl : tl = [] ∨ tl ≠ [] := by tauto
    have htrans : ∀ n, ¬ stopsAt (d + charDelta c) tl n := by
      intro n hn
      have n1 : 0 < n := hn.1
      have n2 : n ≤ tl.length := hn.2.1
      have htl_ne : tl ≠ [] := by
        intro hc
        subst hc
        simp at n2
        omega
      exact h (n + 1) ((stopsAt_cons_succ c tl d n htl_ne n1).mpr hn)
    have hno1 : ¬ (c = '\x7d' ∧ d + charDelta c = 0) := by
      intro hc
      exact h 1 ((stopsAt_cons_one c tl d).mpr hc)
    unfold scanBalanced
    by_cases hcb : c = '\x7b'
    · rw [if_pos hcb]
      have : charDelta c = 1 := by simp [charDelta, hcb]
      rw [this] at htrans
      rw [ih (d + 1) htrans]
      rfl
    · rw [if_neg hcb]
      by_cases hcd : c = '\x7d'
      · rw [if_pos hcd]
        have hdelta : charDelta c = -1 := by simp [charDelta, hcb, hcd]
        have hne : ¬ (d - 1 = 0) := by
          intro hz
          exact hno1 ⟨hcd, by omega⟩
        rw [if_neg hne]
        rw [hdelta] at htrans
        rw [show d + -1 = d - 1 from by omega] at htrans
        rw [ih (d - 1) htrans]
        rfl
      · rw [if_neg hcd]
        have : charDelta c = 0 := by simp [charDelta, hcb, hcd]
        rw [this] at htrans
        simp only [Int.add_zero] at htrans
        rw [ih d htrans]
        rfl

theorem no_stop_of_scan_none (cs : List Char) (d : Int)
    (h : scanBalanced d cs = none) : ∀ n, ¬ stopsAt d cs n := by
  intro n
  induction n using Nat.strong_induction_on with
  | _ n ihn =>
    intro hn
    by_cases hleast : ∀ m, m < n → ¬ stopsAt d cs m
    · rw [scan_eq_of_least cs d n hn hleast] at h
      exact Option.noConfusion h
    · push_neg at hleast
      obtain ⟨m, hm, hsm⟩ := hleast
      exact ihn m hm hsm

theorem scan_stop_of_some (cs : List Char) :
    ∀ (d : Int) (p : List Char), scanBalanced d cs = some p →
      ∃ n, stopsAt d cs n ∧ (∀ m, m < n → ¬ stopsAt d cs m) ∧ p = cs.take n := by
  induction cs with
  | nil => intro d p h; exact absurd h (by simp [scanBalanced])
  | cons c tl ih =>
    intro d p h
    unfold scanBalanced at h
    by_cases hcb : c = '\x7b'
    · rw [if_pos hcb] at h
      cases hsc : scanBalanced (d + 1) tl with
      | none => rw [hsc] at h; simp at h
      | some q =>
        rw [hsc] at h
        simp only [Option.map_some', Option.some.injEq] at h
        obtain ⟨n', hstop', hleast', hq⟩ := ih (d + 1) q hsc
        have htl_ne : tl ≠ [] := by
          intro hc
          subst hc
          obtain ⟨a, b, _, _⟩ := hstop'
          simp at b
          omega
        have hdelta : charDelta c = 1 := by simp [charDelta, hcb]
        refine ⟨n' + 1, ?_, ?_, ?_⟩
        · rw [stopsAt_cons_succ c tl d n' htl_ne hstop'.1, hdelta]
          exact hstop'
        · intro m hm hsm
          cases m with
          | zero => exact absurd hsm (by rintro ⟨a, _, _, _⟩; omega)
          | succ m' =>
            cases m' with
            | zero =>
              rw [stopsAt_cons_one] at hsm
              rw [hcb] at hsm
              exact absurd hsm.1 (by decide)
            | succ m'' =>
              rw [stopsAt_cons_succ c tl d (m'' + 1) htl_ne (by omega), hdelta] at hsm
              exact hleast' (m'' + 1) (by omega) hsm
        · rw [← h, hq, List.take_succ_cons]
    · rw [if_neg hcb] at h
      by_cases hcd : c = '\x7d'
      · rw [if_pos hcd] at h
        have hdelta : charDelta c = -1 := by simp [charDelta, hcb, hcd]
        by_cases hz : d - 1 = 0
        · rw [if_pos hz] at h
          simp only [Option.some.injEq] at h
          refine ⟨1, ?_, ?_, ?_⟩
          · rw [stopsAt_cons_one]
            exact ⟨hcd, by rw [hdelta]; omega⟩
          · intro m hm
            rintro ⟨a, _, _, _⟩
            omega
          · rw [← h, List.take_succ_cons, List.take_zero]
        · rw [if_neg hz] at h
          cases hsc : scanBalanced (d - 1) tl with
          | none => rw [hsc] at h; simp at h
          | some q =>
            rw [hsc] at h
            simp only [Option.map_some', Option.some.injEq] at h
            obtain ⟨n', hstop', hleast', hq⟩ := ih (d - 1) q hsc
            have htl_ne : tl ≠ [] := by
              intro hc
              subst hc
              obtain ⟨a, b, _, _⟩ := hstop'
              simp at b
              omega
            refine ⟨n' + 1, ?_, ?_, ?_⟩
            · rw [stopsAt_cons_succ c tl d n' htl_ne hstop'.1, hdelta]
              rw [show d + -1 = d - 1 from by omega]
              exact hstop'
            · intro m hm hsm
              cases m with
              | zero => exact absurd hsm (by rintro ⟨a, _, _, _⟩; omega)
              | succ m' =>
                cases m' with
                | zero =>
                  rw [stopsAt_cons_one] at hsm
                  rw [hdelta] at hsm
                  exact hz (by omega)
                | succ m'' =>
                  rw [stopsAt_cons_succ c tl d (m'' + 1) htl_ne (by omega), hdelta] at hsm
                  rw [show d + -1 = d - 1 from by omega] at hsm
                  exact hleast' (m'' + 1) (by omega) hsm
            · rw [← h, hq, List.take_succ_cons]
      · rw [if_neg hcd] at h
        have hdelta : charDelta c = 0 := by simp [charDelta, hcb, hcd]
        cases hsc : scanBalanced d tl with
        | none => rw [hsc] at h; simp at h
        | some q =>
          rw [hsc] at h
          simp only [Option.map_some', Option.some.injEq] at h
          obtain ⟨n', hstop', hleast', hq⟩ := ih d q hsc
          have htl_ne : tl ≠ [] := by
            intro hc
            subst hc
            obtain ⟨a, b, _, _⟩ := hstop'
            simp at b
            omega
          refine ⟨n' + 1, ?_, ?_, ?_⟩
          · rw [stopsAt_cons_succ c tl d n' htl_ne hstop'.1, hdelta]
            simpa using hstop'
          · intro m hm hsm
            cases m with
            | zero => exact absurd hsm (by rintro ⟨a, _, _, _⟩; omega)
            | succ m' =>
              cases m' with
              | zero =>
                rw [stopsAt_cons_one] at hsm
                exact hcd hsm.1
              | succ m'' =>
                rw [stopsAt_cons_succ c tl d (m'' + 1) htl_ne (by omega), hdelta] at hsm
                simp only [Int.add_zero] at hsm
                exact hleast' (m'' + 1) (by omega) hsm
          · rw [← h, hq, List.take_succ_cons]

/-! ## C2 and C3: the extraction contract -/

/-- C2: for every input whose stripped text contains a `{` from which the
brace-depth scan first returns to zero after `n` characters, `extract_json`
returns the JSON parse of exactly that substring (first `{` through the
closing `}` inclusive); surrounding prose and later top-level objects are
ignored, and a parse failure is propagated as the extraction error. -/
theorem extract_json_scan_spec (text : String) (n : Nat)
    (hstop : stopsAt 0 (extractSuffix text) n)
    (hleast : ∀ m, m < n → ¬ stopsAt 0 (extractSuffix text) m) :
    extract_json text =
      Except.mapError ExtractErr.parseFail
        (json_loads (String.mk ((extractSuffix text).take n))) := by
  have hne : extractSuffix text ≠ [] := by
    intro hc
    have h2 := hstop.2.1
    rw [hc] at h2
    simp at h2
    omega
  unfold extract_json
  dsimp only []
  rw [if_neg (by simpa [List.isEmpty_iff] using hne)]
  rw [scan_eq_of_least _ 0 n hstop hleast]
  dsimp only []
  cases json_loads (String.mk ((extractSuffix text).take n)) with
  | ok v => rfl
  | error e => rfl

/-- Witness for C2: prose before the object and a second object after it. -/
theorem extract_json_scan_spec_witness :
    stopsAt 0 (extractSuffix "x \x7b\x7d y \x7b\x7d") 2 ∧
    (∀ m, m < 2 → ¬ stopsAt 0 (extractSuffix "x \x7b\x7d y \x7b\x7d") m) ∧
    extract_json "x \x7b\x7d y \x7b\x7d" =
      Except.mapError ExtractErr.parseFail
        (json_loads (String.mk ((extractSuffix "x \x7b\x7d y \x7b\x7d").take 2))) :=
  ⟨by decide, by decide,
   extract_json_scan_spec "x \x7b\x7d y \x7b\x7d" 2 (by decide) (by decide)⟩

/-- C3: `extract_json` raises if and only if one of the three documented
conditions holds after fence stripping — no `{` at all (the `noJson` error),
the depth scan never returning to zero before the end (the `incomplete`
error), or the candidate substring failing to parse, in which case the
underlying parse error is propagated, not swallowed. -/
theorem extract_json_error_conditions (text : String) :
    (extract_json text = .error .noJson ↔ extractSuffix text = []) ∧
    (extract_json text = .error .incomplete ↔
      extractSuffix text ≠ [] ∧ ∀ n, ¬ stopsAt 0 (extractSuffix text) n) ∧
    (∀ e, extract_json text = .error (.parseFail e) ↔
      ∃ n, stopsAt 0 (extractSuffix text) n ∧
        (∀ m, m < n → ¬ stopsAt 0 (extractSuffix text) m) ∧
        json_loads (String.mk ((extractSuffix text).take n)) = .error e) := by
  by_cases hemp : extractSuffix text = []
  · have hext : extract_json text = .error .noJson := by
      unfold extract_json
      dsimp only []
      rw [if_pos (by simp [hemp])]
    refine ⟨⟨fun _ => hemp, fun _ => hext⟩, ⟨?_, ?_⟩, ?_⟩
    · intro hc
      rw [hext] at hc
      simp at hc
    · rintro ⟨hne, _⟩
      exact absurd hemp hne
    · intro e
      constructor
      · intro hc
        rw [hext] at hc
        simp at hc
      · rintro ⟨n, hstop, _, _⟩
        have h2 := hstop.2.1
        rw [hemp] at h2
        simp at h2
        omega
  · cases hsc : scanBalanced 0 (extractSuffix text) with
    | none =>
      have hext : extract_json text = .error .incomplete := by
        unfold extract_json
        dsimp only []
        rw [if_neg (by simpa [List.isEmpty_iff] using hemp)]
        rw [hsc]
      refine ⟨⟨?_, ?_⟩, ⟨fun _ => ⟨hemp, no_stop_of_scan_none _ 0 hsc⟩, fun _ => hext⟩, ?_⟩
      · intro hc
        rw [hext] at hc
        simp at hc
      · intro hc
        exact absurd hc hemp
      · intro e
        constructor
        · intro hc
          rw [hext] at hc
          simp at hc
        · rintro ⟨n, hstop, _, _⟩
          exact absurd hstop (no_stop_of_scan_none _ 0 hsc n)
    | some cand =>
      obtain ⟨n₀, hstop₀, hleast₀, hcand⟩ := scan_stop_of_some _ 0 cand hsc
      have hext : extract_json text =
          Except.mapError ExtractErr.parseFail (json_loads (String.mk cand)) := by
        unfold extract_json
        dsimp only []
        rw [if_neg (by simpa [List.isEmpty_iff] using hemp)]
        rw [hsc]
        dsimp only []
        cases json_loads (String.mk cand) with
        | ok v => rfl
        | error e => rfl
      refine ⟨⟨?_, fun hc => absurd hc hemp⟩, ⟨?_, ?_⟩, ?_⟩
      · intro hc
        rw [hext] at hc
        cases hjl : json_loads (String.mk cand) with
        | ok v => rw [hjl] at hc; simp [Except.mapError] at hc
        | error e => rw [hjl] at hc; simp [Except.mapError] at hc
      · intro hc
        rw [hext] at hc
        cases hjl : json_loads (String.mk cand) with
        | ok v => rw [hjl] at hc; simp [Except.mapError] at hc
        | error e => rw [hjl] at hc; simp [Except.mapError] at hc
      · rintro ⟨_, hnostop⟩
        exact absurd hstop₀ (hnostop n₀)
      · intro e
        constructor
        · intro hc
          rw [hext] at hc
          cases hjl : json_loads (String.mk cand) with
          | ok v => rw [hjl] at hc; simp [Except.mapError] at hc
          | error e' =>
            rw [hjl] at hc
            simp [Except.mapError] at hc
            subst hc
            exact ⟨n₀, hstop₀, hleast₀, by rw [← hcand]; exact hjl⟩
        · rintro ⟨n, hstop, hleast, hperr⟩
          have hn : n = n₀ := by
            rcases Nat.lt_trichotomy n n₀ with hlt | heq | hgt
            · exact absurd hstop (hleast₀ n hlt)
            · exact heq
            · exact absurd hstop₀ (hleast n₀ hgt)
          subst hn
          rw [← hcand] at hperr
          rw [hext, hperr]
          rfl

/-! ## C4: round trip on already-clean JSON.  Safety predicates. -/

/-- Characters that may legitimately follow a JSON number (so the digit run
stops): end of input, `,`, `]`, `}`. -/
def numStop : List Char → Bool
  | [] => true
  | c :: _ => c == ',' || c == ']' || c == '\x7d'

/-- The running brace depth stays non-negative over every prefix. -/
def runningNonneg (d : Int) : List Char → Bool
  | [] => true
  | c :: cs => decide (0 ≤ d + charDelta c) && runningNonneg (d + charDelta c) cs

/-- No unbalanced braces: every prefix has at least as many `{` as `}`, and
the whole string is balanced. -/
def braceBalancedChars (cs : List Char) : Bool :=
  runningNonneg 0 cs && (braceDelta cs == 0)

def keysNodup : List String → Bool
  | [] => true
  | k :: tl => (!(tl.contains k)) && keysNodup tl

mutual

/-- Every string occurring in the value (keys included) has balanced braces —
the claim's "no embedded unescaped unbalanced braces in string values". -/
def stringsBraceSafe : Json → Bool
  | .null => true
  | .bool _ => true
  | .num _ => true
  | .str s => braceBalancedChars s.data
  | .arr xs => stringsBraceSafeList xs
  | .obj kvs => stringsBraceSafeKVs kvs

def stringsBraceSafeList : List Json → Bool
  | [] => true
  | x :: tl => stringsBraceSafe x && stringsBraceSafeList tl

def stringsBraceSafeKVs : List (String × Json) → Bool
  | [] => true
  | (k, v) :: tl => braceBalancedChars k.data && stringsBraceSafe v && stringsBraceSafeKVs tl

end

mutual

/-- The value is representable as a Python dict tree: object keys are unique
at every level (Python dicts cannot carry duplicate keys). -/
def pyDictLike : Json → Bool
  | .null => true
  | .bool _ => true
  | .num _ => true
  | .str _ => true
  | .arr xs => pyDictLikeList xs
  | .obj kvs => keysNodup (kvs.map (fun p => p.1)) && pyDictLikeKVs kvs

def pyDictLikeList : List Json → Bool
  | [] => true
  | x :: tl => pyDictLike x && pyDictLikeList tl

def pyDictLikeKVs : List (String × Json) → Bool
  | [] => true
  | (_, v) :: tl => pyDictLike v && pyDictLikeKVs tl

end

mutual

/-- Fuel needed by `parseValue` to consume the encoding of the value. -/
def fuelVal : Json → Nat
  | .null => 1
  | .bool _ => 1
  | .num _ => 1
  | .str _ => 1
  | .arr [] => 1
  | .arr (x :: tl) => 1 + fuelElems (x :: tl)
  | .obj [] => 1
  | .obj (kv :: tl) => 1 + fuelMembers (kv :: tl)

def fuelElems : List Json → Nat
  | [] => 1
  | x :: tl => 1 + max (fuelVal x) (fuelElems tl)

def fuelMembers : List (String × Json) → Nat
  | [] => 1
  | (_, v) :: tl => 1 + max (fuelVal v) (fuelMembers tl)

end

/-! ### Numerals round-trip -/

theorem toNat_ofNat_lt (n : Nat) (h : n < 55296) : (Char.ofNat n).toNat = n := by
  have hv : n.isValidChar := Or.inl h
  unfold Char.ofNat
  rw [dif_pos hv]
  rfl

theorem digitChar_toNat (d : Nat) (h : d < 10) : (digitChar d).toNat = 48 + d :=
  toNat_ofNat_lt (48 + d) (by omega)

theorem isDigitCh_digitChar (d : Nat) (h : d < 10) : isDigitCh (digitChar d) = true := by
  simp only [isDigitCh, digitChar_toNat d h]
  simp
  omega

theorem natToChars_ne_nil (n : Nat) : natToChars n ≠ [] := by
  unfold natToChars
  by_cases h : n < 10
  · rw [dif_pos h]; simp
  · rw [dif_neg h]; simp

theorem natToChars_digits (n : Nat) : ∀ c ∈ natToChars n, isDigitCh c = true := by
  induction n using Nat.strong_induction_on with
  | _ n ih =>
    intro c hc
    unfold natToChars at hc
    by_cases h : n < 10
    · rw [dif_pos h] at hc
      simp at hc
      subst hc
      exact isDigitCh_digitChar n h
    · rw [dif_neg h] at hc
      simp at hc
      rcases hc with hc | hc
      · exact ih (n / 10) (Nat.div_lt_self (by omega) (by omega)) c hc
      · subst hc
        exact isDigitCh_digitChar _ (Nat.mod_lt n (by omega))

theorem natToChars_head (n : Nat) :
    ∃ d tl, natToChars n = digitChar d :: tl ∧ d < 10 ∧ (0 < n → 0 < d) := by
  induction n using Nat.strong_induction_on with
  | _ n ih =>
    unfold natToChars
    by_cases h : n < 10
    · rw [dif_pos h]
      exact ⟨n, [], rfl, h, fun hn => hn⟩
    · rw [dif_neg h]
      obtain ⟨d, tl, hh, hd10, hpos⟩ := ih (n / 10) (Nat.div_lt_self (by omega) (by omega))
      refine ⟨d, tl ++ [digitChar (n % 10)], by rw [hh]; rfl, hd10, fun _ => ?_⟩
      exact hpos (by omega)

theorem charsToNat_append_single (l : List Char) (c : Char) :
    charsToNat (l ++ [c]) = 10 * charsToNat l + digitVal c := by
  unfold charsToNat
  rw [List.foldl_append]
  simp [List.foldl]
  omega

theorem charsToNat_natToChars (n : Nat) : charsToNat (natToChars n) = n := by
  induction n using Nat.strong_induction_on with
  | _ n ih =>
    unfold natToChars
    by_cases h : n < 10
    · rw [dif_pos h]
      simp [charsToNat, List.foldl, digitVal, digitChar_toNat n h]
    · rw [dif_neg h]
      rw [charsToNat_append_single]
      rw [ih (n / 10) (Nat.div_lt_self (by omega) (by omega))]
      simp only [digitVal, digitChar_toNat (n % 10) (Nat.mod_lt n (by omega))]
      omega

theorem natToChars_no_leading_zero (n : Nat) :
    ¬ ((natToChars n).head? = some '0' ∧ 1 < (natToChars n).length) := by
  by_cases h : n < 10
  · rintro ⟨_, hlen⟩
    unfold natToChars at hlen
    rw [dif_pos h] at hlen
    simp at hlen
  · rintro ⟨hhead, _⟩
    obtain ⟨d, tl, hh, hd10, hpos⟩ := natToChars_head n
    rw [hh] at hhead
    simp at hhead
    have := congrArg Char.toNat hhead
    rw [digitChar_toNat d hd10] at this
    have h48 : ('0' : Char).toNat = 48 := by decide
    rw [h48] at this
    have hd0 : d = 0 := by omega
    have := hpos (by omega)
    omega

theorem takeWhile_digits (rest : List Char)
    (hr : ∀ c, rest.head? = some c → isDigitCh c = false) :
    ∀ ds : List Char, (∀ c ∈ ds, isDigitCh c = true) →
      (ds ++ rest).takeWhile isDigitCh = ds ∧
        (ds ++ rest).dropWhile isDigitCh = rest := by
  intro ds
  induction ds with
  | nil =>
    intro _
    simp only [List.nil_append]
    cases rest with
    | nil => simp
    | cons c tl =>
      have := hr c rfl
      simp [List.takeWhile_cons, List.dropWhile_cons, this]
  | cons a ds ih =>
    intro hd
    have ha := hd a (by simp)
    have ih' := ih (fun c hc => hd c (by simp [hc]))
    simp [List.takeWhile_cons, List.dropWhile_cons, ha, ih'.1, ih'.2]

theorem numStop_head (rest : List Char) (h : numStop rest = true) :
    ∀ c, rest.head? = some c →
      isDigitCh c = false ∧ c ≠ '.' ∧ c ≠ 'e' ∧ c ≠ 'E' := by
  intro c hc
  cases rest with
  | nil => simp at hc
  | cons a tl =>
    simp at hc
    subst hc
    simp [numStop] at h
    rcases h with (h | h) | h <;> subst h <;>
      exact ⟨by decide, by decide, by decide, by decide⟩

theorem parseNumPart_encode (n : Nat) (rest : List Char) (hstop : numStop rest = true) :
    parseNumPart (natToChars n ++ rest) = .ok (n, rest) := by
  have hr : ∀ c, rest.head? = some c → isDigitCh c = false := fun c hc =>
    (numStop_head rest hstop c hc).1
  obtain ⟨htake, hdrop⟩ := takeWhile_digits rest hr (natToChars n) (natToChars_digits n)
  unfold parseNumPart
  dsimp only []
  rw [htake, hdrop]
  rw [if_neg (by simp [List.isEmpty_iff, natToChars_ne_nil n])]
  rw [if_neg (natToChars_no_leading_zero n)]
  rw [if_neg ?hfloat]
  · rw [charsToNat_natToChars]
  case hfloat =>
    intro hc
    cases hrest : rest with
    | nil => rw [hrest] at hc; simp at hc
    | cons a tl =>
      rw [hrest] at hc
      have hfacts := numStop_head rest hstop a (by rw [hrest]; rfl)
      rcases hc with hc | hc | hc
      · simp at hc; exact absurd hc hfacts.2.1
      · simp at hc; exact absurd hc hfacts.2.2.1
      · simp at hc; exact absurd hc hfacts.2.2.2

theorem parseNumber_encode (n : Int) (rest : List Char) (hstop : numStop rest = true) :
    parseNumber (intToChars n ++ rest) = .ok (n, rest) := by
  unfold parseNumber intToChars
  by_cases hn : n < 0
  · rw [if_pos hn]
    simp only [List.cons_append]
    rw [if_pos (by simp)]
    rw [show ('-' :: (natToChars n.natAbs ++ rest)).tail = natToChars n.natAbs ++ rest
      from rfl]
    rw [parseNumPart_encode n.natAbs rest hstop]
    simp only [Except.ok.injEq, Prod.mk.injEq]
    constructor
    · omega
    · trivial
  · rw [if_neg hn]
    obtain ⟨d, tl, hhead, hd10, _⟩ := natToChars_head n.toNat
    rw [hhead]
    simp only [List.cons_append]
    rw [if_neg ?hneg]
    · rw [← List.cons_append, ← hhead, parseNumPart_encode n.toNat rest hstop]
      simp only [Except.ok.injEq, Prod.mk.injEq]
      constructor
      · omega
      · trivial
    case hneg =>
      simp only [List.head?_cons, Option.some.injEq]
      intro hc
      have := congrArg Char.toNat hc
      rw [digitChar_toNat d hd10] at this
      have h45 : ('-' : Char).toNat = 45 := by decide
      rw [h45] at this
      omega

/-! ### String literals round-trip -/

theorem hexVal_hexDigitChar (m : Nat) (h : m < 16) : hexVal (hexDigitChar m) = some m := by
  interval_cases m <;> decide


theorem step_quote (recur : List Char → Except String (List Char × List Char))
    (cs : List Char) : psbStep recur ('"' :: cs) = .ok ([], cs) := by
  unfold psbStep
  dsimp only []
  rw [if_pos rfl]

theorem step_escaped (recur : List Char → Except String (List Char × List Char))
    (e ch : Char) (cs : List Char) (hu : ¬ e = 'u') (hdec : escDecode e = some ch) :
    psbStep recur ('\\' :: e :: cs) =
      match recur cs with
      | .ok p => .ok (ch :: p.1, p.2)
      | .error er => .error er := by
  unfold psbStep
  dsimp only []
  rw [if_neg (by decide), if_pos rfl, if_neg hu, hdec]

theorem hexScalar_encode (c : Char) (h : c.toNat < 32) :
    hexScalar '0' '0' (hexDigitChar (c.toNat / 16)) (hexDigitChar (c.toNat % 16)) =
      some c.toNat := by
  unfold hexScalar
  simp only [show hexVal '0' = some 0 from by decide,
    hexVal_hexDigitChar (c.toNat / 16) (by omega),
    hexVal_hexDigitChar (c.toNat % 16) (by omega)]
  rw [if_pos (Or.inl (by omega))]
  rw [show (0 * 4096 + 0 * 256 + c.toNat / 16 * 16 + c.toNat % 16) = c.toNat
    from by omega]

theorem step_u (recur : List Char → Except String (List Char × List Char))
    (c : Char) (cs : List Char) (h : c.toNat < 32) :
    psbStep recur ('\\' :: 'u' :: '0' :: '0' :: hexDigitChar (c.toNat / 16) ::
        hexDigitChar (c.toNat % 16) :: cs) =
      match recur cs with
      | .ok p => .ok (c :: p.1, p.2)
      | .error er => .error er := by
  unfold psbStep
  dsimp only []
  rw [if_neg (by decide), if_pos rfl, if_pos rfl]
  rw [hexScalar_encode c h]
  dsimp only []
  rw [Char.ofNat_toNat]

theorem step_plain (recur : List Char → Except String (List Char × List Char))
    (c : Char) (cs : List Char) (h1 : ¬ c = '"') (h2 : ¬ c = '\\')
    (h3 : ¬ c.toNat < 32) :
    psbStep recur (c :: cs) =
      match recur cs with
      | .ok p => .ok (c :: p.1, p.2)
      | .error e => .error e := by
  unfold psbStep
  dsimp only []
  rw [if_neg h1, if_neg h2, if_neg h3]

theorem escChar_length_pos (c : Char) : 0 < (escChar c).length := by
  unfold escChar
  split_ifs <;> simp

theorem psbF_escape (s : List Char) :
    ∀ (fuel : Nat) (rest : List Char), (escapeChars s).length + 1 ≤ fuel →
      parseStringBodyF fuel (escapeChars s ++ '"' :: rest) = .ok (s, rest) := by
  induction s with
  | nil =>
    intro fuel rest hf
    cases fuel with
    | zero => simp [escapeChars] at hf
    | succ f =>
      rw [show escapeChars [] = [] from rfl, List.nil_append]
      rw [show parseStringBodyF (f + 1) ('"' :: rest) =
        psbStep (parseStringBodyF f) ('"' :: rest) from rfl]
      exact step_quote _ rest
  | cons c tl ih =>
    intro fuel rest hf
    have hesc : escapeChars (c :: tl) = escChar c ++ escapeChars tl := by
      simp [escapeChars]
    cases fuel with
    | zero =>
      rw [hesc] at hf
      simp at hf
    | succ f =>
      have hf' : (escapeChars tl).length + 1 ≤ f := by
        rw [hesc] at hf
        have hpos := escChar_length_pos c
        rw [List.length_append] at hf
        omega
      have ihf := ih f rest hf'
      rw [hesc, List.append_assoc]
      rw [show parseStringBodyF (f + 1) (escChar c ++ (escapeChars tl ++ '"' :: rest)) =
        psbStep (parseStringBodyF f) (escChar c ++ (escapeChars tl ++ '"' :: rest))
        from rfl]
      unfold escChar
      by_cases h1 : c = '"'
      · rw [if_pos h1]
        rw [show (['\\', '"'] : List Char) ++ (escapeChars tl ++ '"' :: rest) =
          '\\' :: '"' :: (escapeChars tl ++ '"' :: rest) from rfl]
        rw [step_escaped _ '"' '"' _ (by decide) (by decide), ihf, h1]
      · rw [if_neg h1]
        by_cases h2 : c = '\\'
        · rw [if_pos h2]
          rw [show (['\\', '\\'] : List Char) ++ (escapeChars tl ++ '"' :: rest) =
            '\\' :: '\\' :: (escapeChars tl ++ '"' :: rest) from rfl]
          rw [step_escaped _ '\\' '\\' _ (by decide) (by decide), ihf, h2]
        · rw [if_neg h2]
          by_cases h3 : c = '\n'
          · rw [if_pos h3]
            rw [show (['\\', 'n'] : List Char) ++ (escapeChars tl ++ '"' :: rest) =
              '\\' :: 'n' :: (escapeChars tl ++ '"' :: rest) from rfl]
            rw [step_escaped _ 'n' '\n' _ (by decide) (by decide), ihf, h3]
          · rw [if_neg h3]
            by_cases h4 : c = '\r'
            · rw [if_pos h4]
              rw [show (['\\', 'r'] : List Char) ++ (escapeChars tl ++ '"' :: rest) =
                '\\' :: 'r' :: (escapeChars tl ++ '"' :: rest) from rfl]
              rw [step_escaped _ 'r' '\r' _ (by decide) (by decide), ihf, h4]
            · rw [if_neg h4]
              by_cases h5 : c = '\t'
              · rw [if_pos h5]
                rw [show (['\\', 't'] : List Char) ++ (escapeChars tl ++ '"' :: rest) =
                  '\\' :: 't' :: (escapeChars tl ++ '"' :: rest) from rfl]
                rw [step_escaped _ 't' '\t' _ (by decide) (by decide), ihf, h5]
              · rw [if_neg h5]
                by_cases h6 : c.toNat = 8
                · rw [if_pos h6]
                  have hc : c = Char.ofNat 8 := by
                    rw [← Char.ofNat_toNat c, h6]
                  rw [show (['\\', 'b'] : List Char) ++ (escapeChars tl ++ '"' :: rest) =
                    '\\' :: 'b' :: (escapeChars tl ++ '"' :: rest) from rfl]
                  rw [step_escaped _ 'b' (Char.ofNat 8) _ (by decide) (by decide), ihf, hc]
                · rw [if_neg h6]
                  by_cases h7 : c.toNat = 12
                  · rw [if_pos h7]
                    have hc : c = Char.ofNat 12 := by
                      rw [← Char.ofNat_toNat c, h7]
                    rw [show (['\\', 'f'] : List Char) ++ (escapeChars tl ++ '"' :: rest) =
                      '\\' :: 'f' :: (escapeChars tl ++ '"' :: rest) from rfl]
                    rw [step_escaped _ 'f' (Char.ofNat 12) _ (by decide) (by decide),
                      ihf, hc]
                  · rw [if_neg h7]
                    by_cases h8 : c.toNat < 32
                    · rw [if_pos h8]
                      rw [show (['\\', 'u', '0', '0', hexDigitChar (c.toNat / 16),
                          hexDigitChar (c.toNat % 16)] : List Char) ++
                          (escapeChars tl ++ '"' :: rest) =
                        '\\' :: 'u' :: '0' :: '0' :: hexDigitChar (c.toNat / 16) ::
                          hexDigitChar (c.toNat % 16) ::
                          (escapeChars tl ++ '"' :: rest) from rfl]
                      rw [step_u _ c _ h8, ihf]
                    · rw [if_neg h8]
                      rw [show ([c] : List Char) ++ (escapeChars tl ++ '"' :: rest) =
                        c :: (escapeChars tl ++ '"' :: rest) from rfl]
                      rw [step_plain _ c _ h1 h2 h8, ihf]

theorem parseStringBody_escape (s : List Char) (rest : List Char) :
    parseStringBody (escapeChars s ++ '"' :: rest) = .ok (s, rest) := by
  unfold parseStringBody
  apply psbF_escape
  rw [List.length_append]
  simp

/-! ### Heads of encodings, dict rebuild, fuel bounds -/

theorem ne_of_toNat_ne (c d : Char) (h : c.toNat ≠ d.toNat) : ¬ c = d :=
  fun he => h (congrArg Char.toNat he)

theorem digit_head_facts (c : Char) (h : isDigitCh c = true) :
    jsonWs c = false ∧ ¬ c = '\x7b' ∧ ¬ c = '[' ∧ ¬ c = '"' ∧ ¬ c = 't' ∧
      ¬ c = 'f' ∧ ¬ c = 'n' ∧ ¬ c = ']' ∧ ¬ c = '\x7d' ∧ ¬ c = ',' ∧
      ¬ c = '-' ∧ ¬ c = ':' := by
  have h48 : 48 ≤ c.toNat ∧ c.toNat ≤ 57 := by simpa [isDigitCh] using h
  have hne : ∀ d : Char, d.toNat < 48 ∨ 57 < d.toNat → ¬ c = d := by
    intro d hd he
    rw [he] at h48
    omega
  have hws : jsonWs c = false := by
    have e1 : (c == ' ') = false := by
      simp only [beq_eq_false_iff_ne, ne_eq]
      exact hne ' ' (Or.inl (by decide))
    have e2 : (c == '\t') = false := by
      simp only [beq_eq_false_iff_ne, ne_eq]
      exact hne '\t' (Or.inl (by decide))
    have e3 : (c == '\n') = false := by
      simp only [beq_eq_false_iff_ne, ne_eq]
      exact hne '\n' (Or.inl (by decide))
    have e4 : (c == '\r') = false := by
      simp only [beq_eq_false_iff_ne, ne_eq]
      exact hne '\r' (Or.inl (by decide))
    simp [jsonWs, e1, e2, e3, e4]
  exact ⟨hws, hne '\x7b' (Or.inr (by decide)), hne '[' (Or.inr (by decide)),
    hne '"' (Or.inl (by decide)), hne 't' (Or.inr (by decide)),
    hne 'f' (Or.inr (by decide)), hne 'n' (Or.inr (by decide)),
    hne ']' (Or.inr (by decide)), hne '\x7d' (Or.inr (by decide)),
    hne ',' (Or.inl (by decide)), hne '-' (Or.inl (by decide)),
    hne ':' (Or.inr (by decide))⟩

theorem intToChars_head (n : Int) :
    ∃ c cs, intToChars n = c :: cs ∧ (isDigitCh c = true ∨ c = '-') := by
  unfold intToChars
  by_cases hn : n < 0
  · rw [if_pos hn]
    exact ⟨'-', _, rfl, Or.inr rfl⟩
  · rw [if_neg hn]
    obtain ⟨d, tl, hh, hd10, _⟩ := natToChars_head n.toNat
    exact ⟨digitChar d, tl, hh, Or.inl (isDigitCh_digitChar d hd10)⟩

theorem encode_head (v : Json) :
    ∃ c cs, encode v = c :: cs ∧ jsonWs c = false ∧ ¬ c = ']' ∧ ¬ c = '\x7d' ∧
      ¬ c = ',' ∧ ¬ c = ':' := by
  cases v with
  | null => exact ⟨'n', ['u', 'l', 'l'], by simp [encode], by decide, by decide,
      by decide, by decide, by decide⟩
  | bool b =>
    cases b with
    | true => exact ⟨'t', ['r', 'u', 'e'], by simp [encode], by decide, by decide,
        by decide, by decide, by decide⟩
    | false => exact ⟨'f', ['a', 'l', 's', 'e'], by simp [encode], by decide,
        by decide, by decide, by decide, by decide⟩
  | num n =>
    obtain ⟨c, cs, hh, hc⟩ := intToChars_head n
    have hfacts : jsonWs c = false ∧ ¬ c = ']' ∧ ¬ c = '\x7d' ∧ ¬ c = ',' ∧
        ¬ c = ':' := by
      rcases hc with hd | hm
      · obtain ⟨hws, _, _, _, _, _, _, f8, f9, f10, _, f12⟩ := digit_head_facts c hd
        exact ⟨hws, f8, f9, f10, f12⟩
      · subst hm
        exact ⟨by decide, by decide, by decide, by decide, by decide⟩
    exact ⟨c, cs, by simp [encode, hh], hfacts.1, hfacts.2.1, hfacts.2.2.1,
      hfacts.2.2.2.1, hfacts.2.2.2.2⟩
  | str s => exact ⟨'"', escapeChars s.data ++ ['"'], by simp [encode], by decide,
      by decide, by decide, by decide, by decide⟩
  | arr xs => exact ⟨'[', encodeElems xs ++ [']'], by simp [encode], by decide,
      by decide, by decide, by decide, by decide⟩
  | obj kvs => exact ⟨'\x7b', encodeMembers kvs ++ ['\x7d'], by simp [encode],
      by decide, by decide, by decide, by decide, by decide⟩

theorem skipWs_cons_not_ws (c : Char) (cs : List Char) (h : jsonWs c = false) :
    skipWs (c :: cs) = c :: cs := by
  simp [skipWs, List.dropWhile_cons, h]

theorem skipWs_encode (v : Json) (rest : List Char) :
    skipWs (encode v ++ rest) = encode v ++ rest := by
  obtain ⟨c, cs, hh, hws, _, _, _, _⟩ := encode_head v
  rw [hh, List.cons_append]
  exact skipWs_cons_not_ws c (cs ++ rest) hws

theorem hasKey_append (l1 l2 : List (String × Json)) (k : String) :
    hasKey (l1 ++ l2) k = (hasKey l1 k || hasKey l2 k) := by
  induction l1 with
  | nil => simp [hasKey]
  | cons p tl ih =>
    rw [List.cons_append, hasKey_cons, hasKey_cons]
    by_cases hp : p.1 = k
    · simp [hp]
    · simp [hp, ih]

theorem foldl_dictInsert (kvs : List (String × Json)) :
    ∀ init : List (String × Json), (∀ p ∈ kvs, hasKey init p.1 = false) →
      keysNodup (kvs.map (fun p => p.1)) = true →
      kvs.foldl (fun d kv => dictInsert d kv.1 kv.2) init = init ++ kvs := by
  induction kvs with
  | nil => intro init _ _; simp
  | cons kv tl ih =>
    intro init hfresh hnd
    obtain ⟨k, v⟩ := kv
    simp only [List.foldl_cons]
    have h0 : hasKey init k = false := hfresh (k, v) (by simp)
    have hstep : dictInsert init k v = init ++ [(k, v)] := by
      unfold dictInsert
      rw [if_neg (by simp [h0])]
    rw [hstep]
    simp only [List.map_cons, keysNodup, Bool.and_eq_true, Bool.not_eq_true'] at hnd
    rw [ih (init ++ [(k, v)]) ?fresh hnd.2]
    · simp
    case fresh =>
      intro p hp
      rw [hasKey_append]
      have hp1 : hasKey init p.1 = false := hfresh p (by simp [hp])
      have hpk : ¬ p.1 = k := by
        intro he
        have hmem : k ∈ tl.map (fun p => p.1) := he ▸ List.mem_map_of_mem _ hp
        have hcontains := List.elem_eq_true_of_mem hmem
        rw [show (List.map (fun p => p.1) tl).contains k =
          (List.map (fun p => p.1) tl).elem k from rfl, hcontains] at hnd
        exact Bool.noConfusion hnd.1
      rw [hp1]
      rw [hasKey_cons]
      have hkp : ¬ k = p.1 := fun he => hpk he.symm
      simp [hkp, hasKey]

theorem buildDict_nodup (kvs : List (String × Json))
    (h : keysNodup (kvs.map (fun p => p.1)) = true) : buildDict kvs = kvs := by
  unfold buildDict
  rw [foldl_dictInsert kvs [] (fun p _ => rfl) h]
  simp

theorem fuelElems_cons (x : Json) (tl : List Json) :
    fuelElems (x :: tl) = 1 + max (fuelVal x) (fuelElems tl) := by
  simp only [fuelElems]

theorem fuelMembers_cons (k : String) (v : Json) (tl : List (String × Json)) :
    fuelMembers ((k, v) :: tl) = 1 + max (fuelVal v) (fuelMembers tl) := by
  simp only [fuelMembers]

theorem encodeElems_cons2 (x y : Json) (tl : List Json) :
    encodeElems (x :: y :: tl) = encode x ++ ',' :: ' ' :: encodeElems (y :: tl) := by
  simp only [encodeElems]

theorem encodeMembers_cons2 (k : String) (v : Json) (kv2 : String × Json)
    (tl : List (String × Json)) :
    encodeMembers ((k, v) :: kv2 :: tl) =
      '"' :: escapeChars k.data ++ '"' :: ':' :: ' ' :: encode v ++
        ',' :: ' ' :: encodeMembers (kv2 :: tl) := by
  simp only [encodeMembers]

theorem encode_length_pos (v : Json) : 0 < (encode v).length := by
  obtain ⟨c, cs, hh, _⟩ := encode_head v
  rw [hh]
  simp

mutual

theorem fuelVal_le (v : Json) : fuelVal v ≤ (encode v).length := by
  cases v with
  | null => simp [fuelVal, encode]
  | bool b => cases b <;> simp [fuelVal, encode]
  | num n =>
    have h := encode_length_pos (.num n)
    simpa [fuelVal] using h
  | str s =>
    simp [fuelVal, encode]
  | arr xs =>
    cases xs with
    | nil => simp [fuelVal, encode, encodeElems]
    | cons x tl =>
      have h := fuelElems_le (x :: tl)
      simp only [fuelVal, encode, List.length_cons, List.length_append]
      omega
  | obj kvs =>
    cases kvs with
    | nil => simp [fuelVal, encode, encodeMembers]
    | cons kv tl =>
      have h := fuelMembers_le (kv :: tl)
      simp only [fuelVal, encode, List.length_cons, List.length_append]
      omega

theorem fuelElems_le (xs : List Json) : fuelElems xs ≤ (encodeElems xs).length + 1 := by
  cases xs with
  | nil => simp [fuelElems, encodeElems]
  | cons x tl =>
    cases tl with
    | nil =>
      have h1 := fuelVal_le x
      have h2 := encode_length_pos x
      simp only [fuelElems, encodeElems]
      omega
    | cons y tl2 =>
      have h1 := fuelVal_le x
      have h2 := fuelElems_le (y :: tl2)
      rw [fuelElems_cons x (y :: tl2), encodeElems_cons2 x y tl2, List.length_append]
      simp only [List.length_cons]
      omega

theorem fuelMembers_le (kvs : List (String × Json)) :
    fuelMembers kvs ≤ (encodeMembers kvs).length + 1 := by
  cases kvs with
  | nil => simp [fuelMembers, encodeMembers]
  | cons kv tl =>
    obtain ⟨k, v⟩ := kv
    cases tl with
    | nil =>
      have h1 := fuelVal_le v
      have h2 := encode_length_pos v
      simp only [fuelMembers, encodeMembers, List.length_cons, List.length_append]
      omega
    | cons kv2 tl2 =>
      have h1 := fuelVal_le v
      have h2 := fuelMembers_le (kv2 :: tl2)
      rw [fuelMembers_cons k v (kv2 :: tl2), encodeMembers_cons2 k v kv2 tl2]
      simp only [List.length_cons, List.length_append]
      omega

end

/-! ### Parser auxiliaries for the round trip -/

theorem fuelVal_pos (v : Json) : 0 < fuelVal v := by
  cases v with
  | null => simp [fuelVal]
  | bool b => simp [fuelVal]
  | num n => simp [fuelVal]
  | str s => simp [fuelVal]
  | arr xs =>
    cases xs with
    | nil => simp [fuelVal]
    | cons x tl => simp only [fuelVal]; omega
  | obj kvs =>
    cases kvs with
    | nil => simp [fuelVal]
    | cons kv tl => simp only [fuelVal]; omega

theorem fuelElems_pos (xs : List Json) : 0 < fuelElems xs := by
  cases xs with
  | nil => simp [fuelElems]
  | cons x tl => rw [fuelElems_cons]; omega

theorem fuelMembers_pos (kvs : List (String × Json)) : 0 < fuelMembers kvs := by
  cases kvs with
  | nil => simp [fuelMembers]
  | cons kv tl =>
    obtain ⟨k, v⟩ := kv
    rw [fuelMembers_cons]
    omega

theorem skipWs_ws_cons (c : Char) (cs : List Char) (h : jsonWs c = true) :
    skipWs (c :: cs) = skipWs cs := by
  simp [skipWs, List.dropWhile_cons, h]

theorem parseValue_ws_cons (fuel : Nat) (c : Char) (cs : List Char)
    (h : jsonWs c = true) : parseValue fuel (c :: cs) = parseValue fuel cs := by
  cases fuel with
  | zero => rfl
  | succ f =>
    unfold parseValue
    rw [skipWs_ws_cons c cs h]

theorem parseElements_ws_cons (fuel : Nat) (c : Char) (cs : List Char)
    (h : jsonWs c = true) : parseElements fuel (c :: cs) = parseElements fuel cs := by
  cases fuel with
  | zero => rfl
  | succ f =>
    unfold parseElements
    rw [parseValue_ws_cons f c cs h]

theorem encodeMembers_cons_eq (k : String) (v : Json) (tl : List (String × Json)) :
    ∃ cs, encodeMembers ((k, v) :: tl) = '"' :: cs := by
  cases tl with
  | nil =>
    refine ⟨escapeChars k.data ++ '"' :: ':' :: ' ' :: encode v, ?_⟩
    simp [encodeMembers]
  | cons kv2 tl2 =>
    refine ⟨escapeChars k.data ++ '"' :: ':' :: ' ' :: encode v ++
      ',' :: ' ' :: encodeMembers (kv2 :: tl2), ?_⟩
    rw [encodeMembers_cons2]
    simp [List.cons_append]

theorem encodeElems_cons_eq (x : Json) (tl : List Json) :
    ∃ z, encodeElems (x :: tl) = encode x ++ z := by
  cases tl with
  | nil => exact ⟨[], by simp [encodeElems]⟩
  | cons y tl2 =>
    exact ⟨',' :: ' ' :: encodeElems (y :: tl2), by rw [encodeElems_cons2]⟩

set_option maxHeartbeats 1600000 in
/-- Mutual round trip: on sufficient fuel, the parser consumes the encoding of
any duplicate-key-free value and returns exactly that value. -/
theorem parse_encode (fuel : Nat) :
    (∀ (v : Json) (rest : List Char), pyDictLike v = true → numStop rest = true →
        fuelVal v ≤ fuel → parseValue fuel (encode v ++ rest) = .ok (v, rest)) ∧
    (∀ (kvs : List (String × Json)) (rest : List Char), kvs ≠ [] →
        pyDictLikeKVs kvs = true → fuelMembers kvs ≤ fuel →
        parseMembers fuel (encodeMembers kvs ++ '\x7d' :: rest) = .ok (kvs, rest)) ∧
    (∀ (xs : List Json) (rest : List Char), xs ≠ [] → pyDictLikeList xs = true →
        fuelElems xs ≤ fuel →
        parseElements fuel (encodeElems xs ++ ']' :: rest) = .ok (xs, rest)) := by
  induction fuel with
  | zero =>
    refine ⟨?_, ?_, ?_⟩
    · intro v rest _ _ hf
      exact absurd hf (by have := fuelVal_pos v; omega)
    · intro kvs rest _ _ hf
      exact absurd hf (by have := fuelMembers_pos kvs; omega)
    · intro xs rest _ _ hf
      exact absurd hf (by have := fuelElems_pos xs; omega)
  | succ f ih =>
    obtain ⟨ihv, ihm, ihe⟩ := ih
    refine ⟨?_, ?_, ?_⟩
    · intro v rest hdict hstop hfuel
      cases v with
      | null =>
        simp only [encode, List.cons_append, List.nil_append]
        unfold parseValue
        rw [skipWs_cons_not_ws _ _ (by decide)]
        dsimp only []
        rw [if_neg (by decide), if_neg (by decide), if_neg (by decide),
          if_neg (by decide), if_neg (by decide), if_pos rfl]
        rfl
      | bool b =>
        cases b with
        | true =>
          simp only [encode, List.cons_append, List.nil_append]
          unfold parseValue
          rw [skipWs_cons_not_ws _ _ (by decide)]
          dsimp only []
          rw [if_neg (by decide), if_neg (by decide), if_neg (by decide),
            if_pos rfl]
          rfl
        | false =>
          simp only [encode, List.cons_append, List.nil_append]
          unfold parseValue
          rw [skipWs_cons_not_ws _ _ (by decide)]
          dsimp only []
          rw [if_neg (by decide), if_neg (by decide), if_neg (by decide),
            if_neg (by decide), if_pos rfl]
          rfl
      | num n =>
        simp only [encode]
        obtain ⟨c, cs, hh, hc⟩ := intToChars_head n
        rw [hh, List.cons_append]
        have hfacts : jsonWs c = false ∧ ¬ c = '\x7b' ∧ ¬ c = '[' ∧ ¬ c = '"' ∧
            ¬ c = 't' ∧ ¬ c = 'f' ∧ ¬ c = 'n' := by
          rcases hc with hd | hm
          · obtain ⟨a1, a2, a3, a4, a5, a6, a7, _⟩ := digit_head_facts c hd
            exact ⟨a1, a2, a3, a4, a5, a6, a7⟩
          · subst hm
            exact ⟨by decide, by decide, by decide, by decide, by decide,
              by decide, by decide⟩
        unfold parseValue
        rw [skipWs_cons_not_ws _ _ hfacts.1]
        dsimp only []
        rw [if_neg hfacts.2.1, if_neg hfacts.2.2.1, if_neg hfacts.2.2.2.1,
          if_neg hfacts.2.2.2.2.1, if_neg hfacts.2.2.2.2.2.1,
          if_neg hfacts.2.2.2.2.2.2]
        rw [show c :: (cs ++ rest) = (c :: cs) ++ rest from rfl, ← hh]
        rw [parseNumber_encode n rest hstop]
      | str s =>
        simp only [encode]
        simp only [List.append_assoc, List.singleton_append, List.cons_append,
            List.nil_append]
        unfold parseValue
        rw [skipWs_cons_not_ws _ _ (by decide)]
        dsimp only []
        rw [if_neg (by decide), if_neg (by decide), if_pos rfl]
        rw [parseStringBody_escape s.data rest]
      | arr xs =>
        cases xs with
        | nil =>
          simp only [encode, encodeElems]
          simp only [List.append_assoc, List.singleton_append, List.cons_append,
            List.nil_append]
          unfold parseValue
          rw [skipWs_cons_not_ws _ _ (by decide)]
          dsimp only []
          rw [if_neg (by decide), if_pos rfl]
          rw [skipWs_cons_not_ws _ _ (by decide)]
          rw [List.head?_cons]
          rw [if_pos rfl]
          rfl
        | cons x tl =>
          have hlist : pyDictLike x = true ∧ pyDictLikeList tl = true := by
            simpa [pyDictLike, pyDictLikeList] using hdict
          have hfe : fuelVal x ≤ f ∧ fuelElems tl ≤ f := by
            have h1 : fuelVal (Json.arr (x :: tl)) = 1 + fuelElems (x :: tl) := by
              simp only [fuelVal]
            have h2 := fuelElems_cons x tl
            constructor <;> omega
          have hfe2 : fuelElems (x :: tl) ≤ f := by
            have h1 : fuelVal (Json.arr (x :: tl)) = 1 + fuelElems (x :: tl) := by
              simp only [fuelVal]
            omega
          simp only [encode]
          simp only [List.append_assoc, List.singleton_append, List.cons_append,
            List.nil_append]
          unfold parseValue
          rw [skipWs_cons_not_ws _ _ (by decide)]
          dsimp only []
          rw [if_neg (by decide), if_pos rfl]
          obtain ⟨z, hz⟩ := encodeElems_cons_eq x tl
          rw [hz, List.append_assoc]
          rw [skipWs_encode x (z ++ ']' :: rest)]
          obtain ⟨c0, cs0, hh0, hws0, hrb0, hcb0, hcm0, hcl0⟩ := encode_head x
          rw [hh0, List.cons_append]
          rw [if_neg (by simp [hrb0])]
          rw [← List.cons_append, ← hh0, ← List.append_assoc, ← hz]
          rw [ihe (x :: tl) rest (by simp)
            (by simp [pyDictLikeList, hlist.1, hlist.2]) hfe2]
      | obj kvs =>
        cases kvs with
        | nil =>
          simp only [encode, encodeMembers]
          simp only [List.append_assoc, List.singleton_append, List.cons_append,
            List.nil_append]
          unfold parseValue
          rw [skipWs_cons_not_ws _ _ (by decide)]
          dsimp only []
          rw [if_pos rfl]
          rw [skipWs_cons_not_ws _ _ (by decide)]
          rw [List.head?_cons]
          rw [if_pos rfl]
          rfl
        | cons kv tl =>
          obtain ⟨k, v⟩ := kv
          have hkeys : keysNodup (((k, v) :: tl).map (fun p => p.1)) = true ∧
              pyDictLikeKVs ((k, v) :: tl) = true := by
            simpa [pyDictLike] using hdict
          have hfm : fuelMembers ((k, v) :: tl) ≤ f := by
            have h1 : fuelVal (Json.obj ((k, v) :: tl)) =
                1 + fuelMembers ((k, v) :: tl) := by
              simp only [fuelVal]
            omega
          simp only [encode]
          simp only [List.append_assoc, List.singleton_append, List.cons_append,
            List.nil_append]
          unfold parseValue
          rw [skipWs_cons_not_ws _ _ (by decide)]
          dsimp only []
          rw [if_pos rfl]
          obtain ⟨cs1, hcs1⟩ := encodeMembers_cons_eq k v tl
          rw [hcs1, List.cons_append]
          rw [skipWs_cons_not_ws _ _ (by decide)]
          rw [List.head?_cons]
          rw [if_neg (by simp only [Option.some.injEq]; decide)]
          rw [← List.cons_append, ← hcs1]
          rw [ihm ((k, v) :: tl) rest (by simp) hkeys.2 hfm]
          dsimp only []
          rw [buildDict_nodup _ hkeys.1]
    · intro kvs rest hne hdictkvs hfm
      cases kvs with
      | nil => exact absurd rfl hne
      | cons kv tl =>
        obtain ⟨k, v⟩ := kv
        have hv : pyDictLike v = true ∧ pyDictLikeKVs tl = true := by
          simpa [pyDictLikeKVs] using hdictkvs
        have hfv : fuelVal v ≤ f ∧ fuelMembers tl ≤ f := by
          rw [fuelMembers_cons] at hfm
          constructor <;> omega
        cases tl with
        | nil =>
          simp only [encodeMembers]
          simp only [List.append_assoc, List.singleton_append, List.cons_append,
            List.nil_append]
          unfold parseMembers
          rw [List.head?_cons]
          rw [if_pos rfl]
          rw [List.tail_cons]
          rw [parseStringBody_escape k.data (':' :: ' ' :: (encode v ++ '\x7d' :: rest))]
          dsimp only []
          rw [skipWs_cons_not_ws _ _ (by decide)]
          rw [List.head?_cons]
          rw [if_pos rfl]
          rw [List.tail_cons]
          rw [parseValue_ws_cons f ' ' _ (by decide)]
          rw [ihv v ('\x7d' :: rest) hv.1 rfl hfv.1]
          dsimp only []
          rw [skipWs_cons_not_ws _ _ (by decide)]
          rw [List.head?_cons]
          rw [if_neg (by simp only [Option.some.injEq]; decide), if_pos rfl]
          rfl
        | cons kv2 tl2 =>
          obtain ⟨k2, v2⟩ := kv2
          rw [encodeMembers_cons2]
          simp only [List.append_assoc, List.singleton_append, List.cons_append,
            List.nil_append]
          unfold parseMembers
          rw [List.head?_cons]
          rw [if_pos rfl]
          rw [List.tail_cons]
          rw [parseStringBody_escape k.data
            (':' :: ' ' :: (encode v ++ ',' :: ' ' ::
              (encodeMembers ((k2, v2) :: tl2) ++ '\x7d' :: rest)))]
          dsimp only []
          rw [skipWs_cons_not_ws _ _ (by decide)]
          rw [List.head?_cons]
          rw [if_pos rfl]
          rw [List.tail_cons]
          rw [parseValue_ws_cons f ' ' _ (by decide)]
          rw [ihv v (',' :: ' ' :: (encodeMembers ((k2, v2) :: tl2) ++ '\x7d' :: rest))
            hv.1 rfl hfv.1]
          dsimp only []
          rw [skipWs_cons_not_ws _ _ (by decide)]
          rw [List.head?_cons]
          rw [if_pos rfl]
          rw [List.tail_cons]
          rw [skipWs_ws_cons _ _ (by decide)]
          obtain ⟨cs2, hcs2⟩ := encodeMembers_cons_eq k2 v2 tl2
          rw [hcs2, List.cons_append]
          rw [skipWs_cons_not_ws _ _ (by decide)]
          rw [← List.cons_append, ← hcs2]
          rw [ihm ((k2, v2) :: tl2) rest (by simp) hv.2 hfv.2]
    · intro xs rest hne hlist hfe
      cases xs with
      | nil => exact absurd rfl hne
      | cons x tl =>
        have hx : pyDictLike x = true ∧ pyDictLikeList tl = true := by
          simpa [pyDictLikeList] using hlist
        have hfx : fuelVal x ≤ f ∧ fuelElems tl ≤ f := by
          rw [fuelElems_cons] at hfe
          constructor <;> omega
        cases tl with
        | nil =>
          simp only [encodeElems]
          unfold parseElements
          dsimp only []
          rw [ihv x (']' :: rest) hx.1 rfl hfx.1]
          dsimp only []
          rw [skipWs_cons_not_ws _ _ (by decide)]
          rw [List.head?_cons]
          rw [if_neg (by simp only [Option.some.injEq]; decide), if_pos rfl]
          rfl
        | cons y tl2 =>
          rw [encodeElems_cons2]
          simp only [List.append_assoc, List.singleton_append, List.cons_append,
            List.nil_append]
          unfold parseElements
          dsimp only []
          rw [ihv x (',' :: ' ' :: (encodeElems (y :: tl2) ++ ']' :: rest))
            hx.1 rfl hfx.1]
          dsimp only []
          rw [skipWs_cons_not_ws _ _ (by decide)]
          rw [List.head?_cons]
          rw [if_pos rfl]
          rw [List.tail_cons]
          rw [parseElements_ws_cons f ' ' _ (by decide)]
          rw [ihe (y :: tl2) rest (by simp) hx.2 hfx.2]

/-- `json.loads` inverts `json.dumps` on any duplicate-key-free value. -/
theorem json_loads_dumps (v : Json) (hdict : pyDictLike v = true) :
    json_loads (json_dumps v) = .ok v := by
  unfold json_loads json_dumps
  have hdata : (String.mk (encode v)).data = encode v := rfl
  have hlen : (String.mk (encode v)).length = (encode v).length := rfl
  have hpv : parseValue ((String.mk (encode v)).length + 1) (encode v) = .ok (v, []) := by
    have hb : fuelVal v ≤ (String.mk (encode v)).length + 1 := by
      have h1 := fuelVal_le v
      omega
    have := (parse_encode ((String.mk (encode v)).length + 1)).1 v [] hdict rfl hb
    simpa using this
  rw [hdata, hpv]
  rfl

/-! ### Brace balance of encodings -/

theorem charDelta_eq_zero (c : Char) (h1 : ¬ c = '\x7b') (h2 : ¬ c = '\x7d') :
    charDelta c = 0 := by
  simp [charDelta, h1, h2]

theorem braceDelta_append (a b : List Char) :
    braceDelta (a ++ b) = braceDelta a + braceDelta b := by
  induction a with
  | nil => simp [braceDelta]
  | cons c tl ih => simp [braceDelta, ih]; ring

theorem runningNonneg_append (a b : List Char) :
    ∀ d : Int, runningNonneg d (a ++ b) =
      (runningNonneg d a && runningNonneg (d + braceDelta a) b) := by
  induction a with
  | nil => intro d; simp [runningNonneg, braceDelta]
  | cons c tl ih =>
    intro d
    simp only [List.cons_append, runningNonneg, braceDelta, List.append_eq, ih,
      Bool.and_assoc]
    rw [show d + (charDelta c + braceDelta tl) = d + charDelta c + braceDelta tl from by ring]

theorem braceDelta_of_all_zero (cs : List Char) (h : ∀ c ∈ cs, charDelta c = 0) :
    braceDelta cs = 0 := by
  induction cs with
  | nil => rfl
  | cons c tl ih =>
    simp only [braceDelta]
    rw [h c (by simp), ih (fun c hc => h c (by simp [hc]))]
    ring

theorem runningNonneg_of_all_zero (cs : List Char) (h : ∀ c ∈ cs, charDelta c = 0) :
    ∀ d : Int, 0 ≤ d → runningNonneg d cs = true := by
  induction cs with
  | nil => intro d _; rfl
  | cons c tl ih =>
    intro d hd
    simp only [runningNonneg]
    rw [h c (by simp)]
    simp only [add_zero]
    rw [ih (fun c hc => h c (by simp [hc])) d hd]
    simp [hd]

theorem charDelta_hexDigitChar (m : Nat) (h : m < 16) :
    charDelta (hexDigitChar m) = 0 := by
  unfold hexDigitChar charDelta
  interval_cases m <;> decide

theorem escChar_brace (c : Char) (h : c = '\x7b' ∨ c = '\x7d') : escChar c = [c] := by
  rcases h with h | h <;> subst h <;> rfl

theorem escChar_all_zero (c : Char) (h1 : ¬ c = '\x7b') (h2 : ¬ c = '\x7d') :
    ∀ e ∈ escChar c, charDelta e = 0 := by
  intro e he
  unfold escChar at he
  split_ifs at he with hq hb hn hr ht h8 h12 h32
  all_goals fin_cases he <;>
    first
      | decide
      | (exact charDelta_hexDigitChar _ (by omega))
      | (exact charDelta_eq_zero _ h1 h2)

theorem braceDelta_escChar (c : Char) : braceDelta (escChar c) = charDelta c := by
  by_cases hb : c = '\x7b' ∨ c = '\x7d'
  · rw [escChar_brace c hb]
    simp [braceDelta]
  · push_neg at hb
    rw [braceDelta_of_all_zero _ (escChar_all_zero c hb.1 hb.2)]
    rw [charDelta_eq_zero c hb.1 hb.2]

theorem runningNonneg_escChar (c : Char) (d : Int) (hd : 0 ≤ d)
    (hdc : 0 ≤ d + charDelta c) : runningNonneg d (escChar c) = true := by
  by_cases hb : c = '\x7b' ∨ c = '\x7d'
  · rw [escChar_brace c hb]
    simp [runningNonneg, hdc]
  · push_neg at hb
    exact runningNonneg_of_all_zero _ (escChar_all_zero c hb.1 hb.2) d hd

theorem braceDelta_escapeChars (s : List Char) :
    braceDelta (escapeChars s) = braceDelta s := by
  induction s with
  | nil => rfl
  | cons c tl ih =>
    rw [show escapeChars (c :: tl) = escChar c ++ escapeChars tl from by
      simp [escapeChars]]
    rw [braceDelta_append, braceDelta_escChar c, ih]
    rfl

theorem runningNonneg_escapeChars (s : List Char) :
    ∀ d : Int, 0 ≤ d → runningNonneg d s = true →
      runningNonneg d (escapeChars s) = true := by
  induction s with
  | nil => intro d _ _; rfl
  | cons c tl ih =>
    intro d hd hs
    have hs' : (0 ≤ d + charDelta c) ∧ runningNonneg (d + charDelta c) tl = true := by
      simpa [runningNonneg] using hs
    rw [show escapeChars (c :: tl) = escChar c ++ escapeChars tl from by
      simp [escapeChars]]
    rw [runningNonneg_append]
    rw [runningNonneg_escChar c d hd hs'.1]
    rw [braceDelta_escChar c]
    rw [ih (d + charDelta c) hs'.1 hs'.2]
    rfl

theorem runningNonneg_mono (cs : List Char) :
    ∀ d d' : Int, d ≤ d' → runningNonneg d cs = true → runningNonneg d' cs = true := by
  induction cs with
  | nil => intro d d' _ _; rfl
  | cons c tl ih =>
    intro d d' hdd h
    have h' : (0 ≤ d + charDelta c) ∧ runningNonneg (d + charDelta c) tl = true := by
      simpa [runningNonneg] using h
    simp only [runningNonneg]
    rw [ih (d + charDelta c) (d' + charDelta c) (by omega) h'.2]
    simp only [Bool.and_true, decide_eq_true_eq]
    omega

theorem intToChars_all_zero (n : Int) : ∀ c ∈ intToChars n, charDelta c = 0 := by
  intro c hc
  unfold intToChars at hc
  have hdig : ∀ m : Nat, ∀ c ∈ natToChars m, charDelta c = 0 := by
    intro m c hm
    have hd := natToChars_digits m c hm
    obtain ⟨_, f2, _, _, _, _, _, _, f9, _, _, _⟩ := digit_head_facts c hd
    exact charDelta_eq_zero c f2 f9
  by_cases hn : n < 0
  · rw [if_pos hn] at hc
    rcases List.mem_cons.mp hc with hc | hc
    · subst hc; decide
    · exact hdig _ c hc
  · rw [if_neg hn] at hc
    exact hdig _ c hc

theorem member_balance (k : String) (v : Json) (R : List Char)
    (hk : braceBalancedChars k.data = true)
    (hv1 : braceDelta (encode v) = 0)
    (hv2 : ∀ d : Int, 0 ≤ d → runningNonneg d (encode v) = true)
    (hr1 : braceDelta R = 0)
    (hr2 : ∀ d : Int, 0 ≤ d → runningNonneg d R = true) :
    braceDelta ('"' :: escapeChars k.data ++ '"' :: ':' :: ' ' :: encode v ++ R) = 0 ∧
    ∀ d : Int, 0 ≤ d →
      runningNonneg d ('"' :: escapeChars k.data ++ '"' :: ':' :: ' ' :: encode v ++ R) =
        true := by
  have hk' : runningNonneg 0 k.data = true ∧ braceDelta k.data = 0 := by
    simpa [braceBalancedChars] using hk
  have hq : charDelta '"' = 0 := by decide
  have hcl : charDelta ':' = 0 := by decide
  have hsp : charDelta ' ' = 0 := by decide
  constructor
  · simp only [List.cons_append, List.append_eq, braceDelta_append, braceDelta,
      braceDelta_escapeChars]
    rw [hk'.2, hv1, hr1, hq, hcl, hsp]
    ring
  · intro d hd
    simp only [List.cons_append, List.append_eq, runningNonneg, runningNonneg_append,
      braceDelta_append, braceDelta, braceDelta_escapeChars, hq, hcl, hsp, hk'.2, hv1,
      hr1, add_zero]
    rw [runningNonneg_escapeChars k.data d hd (runningNonneg_mono k.data 0 d hd hk'.1)]
    rw [hv2 d hd, hr2 d hd]
    simp [hd]

mutual

theorem encode_balance (v : Json) (h : stringsBraceSafe v = true) :
    braceDelta (encode v) = 0 ∧
      ∀ d : Int, 0 ≤ d → runningNonneg d (encode v) = true := by
  cases v with
  | null =>
    refine ⟨?_, fun d hd => ?_⟩
    · rw [show encode Json.null = ['n', 'u', 'l', 'l'] from by simp [encode]]
      exact braceDelta_of_all_zero _ (by decide)
    · rw [show encode Json.null = ['n', 'u', 'l', 'l'] from by simp [encode]]
      exact runningNonneg_of_all_zero _ (by decide) d hd
  | bool b =>
    cases b with
    | true =>
      refine ⟨?_, fun d hd => ?_⟩
      · rw [show encode (Json.bool true) = ['t', 'r', 'u', 'e'] from by simp [encode]]
        exact braceDelta_of_all_zero _ (by decide)
      · rw [show encode (Json.bool true) = ['t', 'r', 'u', 'e'] from by simp [encode]]
        exact runningNonneg_of_all_zero _ (by decide) d hd
    | false =>
      refine ⟨?_, fun d hd => ?_⟩
      · rw [show encode (Json.bool false) = ['f', 'a', 'l', 's', 'e'] from by
          simp [encode]]
        exact braceDelta_of_all_zero _ (by decide)
      · rw [show encode (Json.bool false) = ['f', 'a', 'l', 's', 'e'] from by
          simp [encode]]
        exact runningNonneg_of_all_zero _ (by decide) d hd
  | num n =>
    refine ⟨?_, fun d hd => ?_⟩
    · rw [show encode (Json.num n) = intToChars n from by simp [encode]]
      exact braceDelta_of_all_zero _ (intToChars_all_zero n)
    · rw [show encode (Json.num n) = intToChars n from by simp [encode]]
      exact runningNonneg_of_all_zero _ (intToChars_all_zero n) d hd
  | str s =>
    have hh : runningNonneg 0 s.data = true ∧ braceDelta s.data = 0 := by
      simpa [stringsBraceSafe, braceBalancedChars] using h
    have hq : charDelta '"' = 0 := by decide
    refine ⟨?_, fun d hd => ?_⟩
    · rw [show encode (Json.str s) = '"' :: (escapeChars s.data ++ ['"']) from by
        simp [encode]]
      simp only [braceDelta, braceDelta_append, braceDelta_escapeChars]
      rw [hh.2, hq]
      simp [braceDelta, hq]
    · rw [show encode (Json.str s) = '"' :: (escapeChars s.data ++ ['"']) from by
        simp [encode]]
      simp only [runningNonneg, runningNonneg_append, braceDelta_escapeChars, hq,
        add_zero]
      rw [hh.2, runningNonneg_escapeChars s.data d hd
        (runningNonneg_mono s.data 0 d hd hh.1)]
      simp only [Bool.and_eq_true, decide_eq_true_eq, Bool.true_and, Bool.and_true]
      constructor <;> omega
  | arr xs =>
    have hx := encodeElems_balance xs (by simpa [stringsBraceSafe] using h)
    have hlb : charDelta '[' = 0 := by decide
    refine ⟨?_, fun d hd => ?_⟩
    · rw [show encode (Json.arr xs) = '[' :: (encodeElems xs ++ [']']) from by
        simp [encode]]
      simp only [braceDelta, braceDelta_append]
      rw [hx.1, hlb]
      decide
    · rw [show encode (Json.arr xs) = '[' :: (encodeElems xs ++ [']']) from by
        simp [encode]]
      simp only [runningNonneg, runningNonneg_append, hlb, add_zero]
      rw [hx.1, hx.2 d hd]
      rw [show charDelta ']' = 0 from by decide]
      simp only [Bool.and_eq_true, decide_eq_true_eq, Bool.true_and, Bool.and_true]
      constructor <;> omega
  | obj kvs =>
    have hm := encodeMembers_balance kvs (by simpa [stringsBraceSafe] using h)
    have hob : charDelta '\x7b' = 1 := by decide
    have hcb : charDelta '\x7d' = -1 := by decide
    refine ⟨?_, fun d hd => ?_⟩
    · rw [show encode (Json.obj kvs) = '\x7b' :: (encodeMembers kvs ++ ['\x7d']) from by
        simp [encode]]
      simp only [braceDelta, braceDelta_append]
      rw [hm.1, hob, hcb]
      ring
    · rw [show encode (Json.obj kvs) = '\x7b' :: (encodeMembers kvs ++ ['\x7d']) from by
        simp [encode]]
      simp only [runningNonneg, runningNonneg_append, hob, hcb]
      rw [hm.1, hm.2 (d + 1) (by omega)]
      simp only [Bool.and_eq_true, decide_eq_true_eq, Bool.true_and, Bool.and_true]
      constructor <;> omega

theorem encodeElems_balance (xs : List Json) (h : stringsBraceSafeList xs = true) :
    braceDelta (encodeElems xs) = 0 ∧
      ∀ d : Int, 0 ≤ d → runningNonneg d (encodeElems xs) = true := by
  cases xs with
  | nil =>
    refine ⟨?_, fun d hd => ?_⟩
    · rw [show encodeElems [] = [] from by simp [encodeElems]]
      rfl
    · rw [show encodeElems [] = [] from by simp [encodeElems]]
      rfl
  | cons x tl =>
    have hsplit : stringsBraceSafe x = true ∧ stringsBraceSafeList tl = true := by
      simpa [stringsBraceSafeList] using h
    have hx := encode_balance x hsplit.1
    cases tl with
    | nil =>
      rw [show encodeElems [x] = encode x from by simp [encodeElems]]
      exact hx
    | cons y tl2 =>
      have hyy := encodeElems_balance (y :: tl2) hsplit.2
      have hcm : charDelta ',' = 0 := by decide
      have hsp : charDelta ' ' = 0 := by decide
      refine ⟨?_, fun d hd => ?_⟩
      · rw [encodeElems_cons2, braceDelta_append]
        simp only [braceDelta]
        rw [hx.1, hyy.1, hcm, hsp]
        ring
      · rw [encodeElems_cons2, runningNonneg_append, hx.2 d hd, hx.1]
        simp only [runningNonneg, hcm, hsp, add_zero]
        rw [hyy.2 d hd]
        simp [hd]

theorem encodeMembers_balance (kvs : List (String × Json))
    (h : stringsBraceSafeKVs kvs = true) :
    braceDelta (encodeMembers kvs) = 0 ∧
      ∀ d : Int, 0 ≤ d → runningNonneg d (encodeMembers kvs) = true := by
  cases kvs with
  | nil =>
    refine ⟨?_, fun d hd => ?_⟩
    · rw [show encodeMembers [] = [] from by simp [encodeMembers]]
      rfl
    · rw [show encodeMembers [] = [] from by simp [encodeMembers]]
      rfl
  | cons kv tl =>
    obtain ⟨k, v⟩ := kv
    have hsplit : (braceBalancedChars k.data = true ∧ stringsBraceSafe v = true) ∧
        stringsBraceSafeKVs tl = true := by
      simpa [stringsBraceSafeKVs] using h
    have hv := encode_balance v hsplit.1.2
    cases tl with
    | nil =>
      have := member_balance k v [] hsplit.1.1 hv.1 hv.2 rfl (fun d _ => rfl)
      rw [List.append_nil] at this
      rw [show encodeMembers [(k, v)] =
        '"' :: escapeChars k.data ++ '"' :: ':' :: ' ' :: encode v from by
          simp [encodeMembers]]
      exact this
    | cons kv2 tl2 =>
      have hmm := encodeMembers_balance (kv2 :: tl2) hsplit.2
      have hcm : charDelta ',' = 0 := by decide
      have hsp : charDelta ' ' = 0 := by decide
      have hr1 : braceDelta (',' :: ' ' :: encodeMembers (kv2 :: tl2)) = 0 := by
        simp only [braceDelta]
        rw [hmm.1, hcm, hsp]
        ring
      have hr2 : ∀ d : Int, 0 ≤ d →
          runningNonneg d (',' :: ' ' :: encodeMembers (kv2 :: tl2)) = true := by
        intro d hd
        simp only [runningNonneg, hcm, hsp, add_zero]
        rw [hmm.2 d hd]
        simp [hd]
      have := member_balance k v (',' :: ' ' :: encodeMembers (kv2 :: tl2))
        hsplit.1.1 hv.1 hv.2 hr1 hr2
      rw [encodeMembers_cons2]
      exact this

end

theorem runningNonneg_take (cs : List Char) :
    ∀ d : Int, 0 ≤ d → runningNonneg d cs = true →
      ∀ m : Nat, 0 ≤ d + braceDelta (cs.take m) := by
  induction cs with
  | nil =>
    intro d hd _ m
    simp [braceDelta]
    omega
  | cons c tl ih =>
    intro d hd h m
    have h' : (0 ≤ d + charDelta c) ∧ runningNonneg (d + charDelta c) tl = true := by
      simpa [runningNonneg] using h
    cases m with
    | zero =>
      simp [braceDelta]
      omega
    | succ m' =>
      rw [List.take_succ_cons]
      simp only [braceDelta]
      have := ih (d + charDelta c) h'.1 h'.2 m'
      omega

theorem take_append_left (l1 l2 : List Char) (n : Nat) (h : n ≤ l1.length) :
    (l1 ++ l2).take n = l1.take n := by
  rw [List.take_append_eq_append_take]
  rw [show n - l1.length = 0 from by omega]
  simp

/-- The depth scan on the encoding of an object stops exactly at the end. -/
theorem stopsAt_encode_obj (kvs : List (String × Json))
    (h : stringsBraceSafeKVs kvs = true) :
    stopsAt 0 (encode (Json.obj kvs)) (encode (Json.obj kvs)).length ∧
      ∀ m, m < (encode (Json.obj kvs)).length →
        ¬ stopsAt 0 (encode (Json.obj kvs)) m := by
  have hm := encodeMembers_balance kvs h
  have henc : encode (Json.obj kvs) = '\x7b' :: (encodeMembers kvs ++ ['\x7d']) := by
    simp [encode]
  have hlen : (encode (Json.obj kvs)).length = (encodeMembers kvs).length + 2 := by
    rw [henc]
    simp
  constructor
  · refine ⟨by omega, le_refl _, ?_, ?_⟩
    · rw [List.take_length, henc]
      rw [show '\x7b' :: (encodeMembers kvs ++ ['\x7d']) =
        ('\x7b' :: encodeMembers kvs) ++ ['\x7d'] from by simp]
      exact List.getLast?_concat _
    · rw [List.take_length, henc]
      simp only [braceDelta, braceDelta_append]
      rw [hm.1]
      decide
  · intro m hmlt hstop
    obtain ⟨h1, h2, h3, h4⟩ := hstop
    rw [henc] at h4
    cases m with
    | zero => omega
    | succ m' =>
      rw [List.take_succ_cons] at h4
      have hm' : m' ≤ (encodeMembers kvs).length := by
        rw [hlen] at hmlt
        omega
      rw [take_append_left _ _ m' hm'] at h4
      simp only [braceDelta] at h4
      have hnn := runningNonneg_take (encodeMembers kvs) 0 (le_refl 0) (hm.2 0 (le_refl 0)) m'
      rw [show charDelta '\x7b' = 1 from by decide] at h4
      omega

theorem scan_encode_obj (kvs : List (String × Json))
    (h : stringsBraceSafeKVs kvs = true) :
    scanBalanced 0 (encode (Json.obj kvs)) = some (encode (Json.obj kvs)) := by
  obtain ⟨hstop, hleast⟩ := stopsAt_encode_obj kvs h
  have := scan_eq_of_least (encode (Json.obj kvs)) 0 (encode (Json.obj kvs)).length
    hstop hleast
  rw [List.take_length] at this
  exact this

/-! ### Fence stripping is the identity on an encoded object -/

theorem pyStrip_brace (B : List Char) :
    pyStrip ('\x7b' :: (B ++ ['\x7d'])) = '\x7b' :: (B ++ ['\x7d']) := by
  unfold pyStrip
  have h1 : List.dropWhile pyWs ('\x7b' :: (B ++ ['\x7d'])) =
      '\x7b' :: (B ++ ['\x7d']) := by
    rw [List.dropWhile_cons, show pyWs '\x7b' = false from by decide]
    simp
  rw [h1]
  have h2 : ('\x7b' :: (B ++ ['\x7d'])).reverse = '\x7d' :: (B.reverse ++ ['\x7b']) := by
    simp
  rw [h2]
  have h3 : List.dropWhile pyWs ('\x7d' :: (B.reverse ++ ['\x7b'])) =
      '\x7d' :: (B.reverse ++ ['\x7b']) := by
    rw [List.dropWhile_cons, show pyWs '\x7d' = false from by decide]
    simp
  rw [h3, ← h2, List.reverse_reverse]

theorem stripLeadFence_not_tick (c0 : Char) (rest : List Char) (h : isTick c0 = false) :
    stripLeadFence (c0 :: rest) = c0 :: rest := by
  unfold stripLeadFence
  cases rest with
  | nil => rfl
  | cons b tl =>
    cases tl with
    | nil => rfl
    | cons c tl2 =>
      simp [h]

theorem stripTrailFence_not_tick (cs : List Char) (c0 : Char) (rest : List Char)
    (hrev : cs.reverse = c0 :: rest) (h : isTick c0 = false) :
    stripTrailFence cs = cs := by
  unfold stripTrailFence
  rw [hrev]
  cases rest with
  | nil => rfl
  | cons b tl =>
    cases tl with
    | nil => rfl
    | cons c tl2 =>
      simp [h]

theorem stripFences_brace (B : List Char) :
    stripFences ('\x7b' :: (B ++ ['\x7d'])) = '\x7b' :: (B ++ ['\x7d']) := by
  unfold stripFences
  rw [pyStrip_brace]
  rw [stripLeadFence_not_tick '\x7b' _ (by decide)]
  rw [pyStrip_brace]
  rw [stripTrailFence_not_tick _ '\x7d' (B.reverse ++ ['\x7b']) (by simp) (by decide)]
  rw [pyStrip_brace]

/-- C4: extraction is idempotent on already-clean JSON: for every
JSON-serializable object `X` — modelled as a `Json.obj` tree whose keys are
unique at every level, as Python dicts force — whose string values (keys
included) contain no unbalanced braces, extracting the canonical JSON
encoding of `X` returns `X`: `extract_json (json_dumps X) = X`. -/
theorem extract_json_roundtrip (kvs : List (String × Json))
    (hdict : pyDictLike (Json.obj kvs) = true)
    (hsafe : stringsBraceSafe (Json.obj kvs) = true) :
    extract_json (json_dumps (Json.obj kvs)) = .ok (Json.obj kvs) := by
  have henc : encode (Json.obj kvs) = '\x7b' :: (encodeMembers kvs ++ ['\x7d']) := by
    simp [encode]
  have hscan := scan_encode_obj kvs (by simpa [stringsBraceSafe] using hsafe)
  have hl := json_loads_dumps (Json.obj kvs) hdict
  unfold extract_json extractSuffix
  dsimp only []
  rw [show (json_dumps (Json.obj kvs)).data = encode (Json.obj kvs) from rfl]
  rw [henc, stripFences_brace]
  rw [List.dropWhile_cons, show (!('\x7b' == '\x7b')) = false from rfl]
  simp only [Bool.false_eq_true, if_false]
  rw [if_neg (by simp)]
  rw [← henc, hscan]
  dsimp only []
  rw [show String.mk (encode (Json.obj kvs)) = json_dumps (Json.obj kvs) from rfl]
  rw [hl]

theorem extract_json_roundtrip_witness :
    pyDictLike (Json.obj [("a", Json.num 1)]) = true ∧
    stringsBraceSafe (Json.obj [("a", Json.num 1)]) = true ∧
    extract_json (json_dumps (Json.obj [("a", Json.num 1)])) =
      .ok (Json.obj [("a", Json.num 1)]) := by
  refine ⟨?_, ?_, ?_⟩
  · simp only [pyDictLike, pyDictLikeKVs]
    decide
  · simp only [stringsBraceSafe, stringsBraceSafeKVs]
    decide
  · exact extract_json_roundtrip [("a", Json.num 1)]
      (by simp only [pyDictLike, pyDictLikeKVs]; decide)
      (by simp only [stringsBraceSafe, stringsBraceSafeKVs]; decide)
